import Mathlib

/-!
Verification development for the typemockr mock-factory generator.

The definitions below are a shallow embedding of the TypeScript sources:
  * `src/analyzer.ts`   — reference-graph construction, Tarjan SCC, recursion annotation
  * `src/category.ts`   — wildcard pattern compilation and first-match resolution
  * `src/generator/faker-infer.ts` — mapping configuration and generator resolution
  * `src/generation.ts` — per-variant value synthesis and emission selection
  * `src/typemockr.ts`  — pipeline glue: base resolution and transitive property collection

JavaScript Maps and Sets are modelled as insertion-ordered association lists /
lists without duplicates, which matches the iteration semantics the code relies
on.  JavaScript runtime type errors (property access on `undefined`) are
modelled with `Except`.  Graph traversals that the source runs on mutable state
are written with an explicit fuel argument; fuel is instantiated at call sites
with a bound that provably exceeds the recursion depth of the original code.
-/

set_option maxHeartbeats 1000000

namespace Typemockr

/-- JS primitive constant payload of an `ASTConstantProperty` (string | number | boolean). -/
inductive CVal where
  | str (s : String)
  | num (n : Int)
  | boolv (b : Bool)
deriving DecidableEq

/- Value nodes of the AST (`ASTPropertyValue` in `ast-types.ts`).  Every JS node
object can carry a `recursiveEdge` field (set only by the recursion annotator);
we model it as a `Bool` present on every node (`false` = absent). -/
mutual

inductive PV where
  | mk (re : Bool) (core : PVCore)

inductive PVCore where
  | primitive (v : String)
  | constant (v : CVal)
  | union (vs : List PV)
  | intersection (vs : List PV)
  | array (vs : List PV)
  | tuple (vs : List PV)
  | object (ps : List AProp)
  | record (vs : List PV)
  | indexSignature (keyType valueType : PV)
  | funct (ret : PV)
  | promise (vs : List PV)
  | reference (v : String) (location : Option String)
  | typeOperator (op : String) (v : PV)
  | mapped (param : String) (constraint : PV) (v : PV)
  | conditional (checkType extendsType trueType falseType : PV)
  | enumv (values : List CVal)

/- `ASTProperty = ASTPropertyValue & { name; optional; ... }`: a property is a
value node with a name; the shared `recursiveEdge` field lives on `pv`. -/
inductive AProp where
  | mk (name : String) (optional : Bool) (pv : PV)

end

def PV.re : PV → Bool
  | .mk r _ => r

def PV.core : PV → PVCore
  | .mk _ c => c

def PV.setReTrue : PV → PV
  | .mk _ c => .mk true c

def AProp.name : AProp → String
  | .mk n _ _ => n

def AProp.optional : AProp → Bool
  | .mk _ o _ => o

def AProp.pv : AProp → PV
  | .mk _ _ v => v

/-- The eight `ASTEntity` variants, discriminated by their `type` field. -/
inductive EKind where
  | instanceK
  | unionK
  | aliasK
  | arrayK
  | primitiveK
  | constantK
  | enumK
  | placeholderK
deriving DecidableEq

/-- Inheritance entry of an instance entity (`inherits` array element). -/
structure Inh where
  expr : String
  location : Option String := none
  properties : List AProp := []

/-- One declared type (`ASTEntity`).  The JS objects are dynamic records; we
collect the union of the fields the engine reads, with the per-kind unused
fields left at their defaults. -/
structure Entity where
  name : String
  kind : EKind
  properties : List AProp := []
  values : List PV := []
  enumValues : List String := []
  aliasEntities : List String := []
  value : PV := .mk false (.primitive "unknown")
  inherits : List Inh := []
  generics : List String := []
  instanceKind : Option String := none
  hasRecursion : Bool := false
  cycleGroup : Option (List String) := none
  location : Option String := none

/-- `GenerationContext` from `faker-infer.ts`; the generator always threads a
context built in `generate`, so we model it as always present. -/
structure Ctx where
  sourceFile : Option String := none
  mockFile : Option String := none
  entityName : Option String := none
  entityHasRecursion : Bool := false
  genericParamSet : List String := []
  typesWithOptions : List String := []

/-- JS runtime faults that the modelled code can raise.  `fuel` is an artifact
of the fueled embedding of structurally recursive source functions; it is never
produced when the call site supplies a fuel above the value-tree depth. -/
inductive JsErr where
  | typeError
  | fuel
deriving DecidableEq

/-! ### Insertion-ordered sets and maps (JS `Set` / `Map`) -/

/-- `Set.add`: append if not already present (JS sets keep insertion order). -/
def lsAdd (s : List String) (x : String) : List String :=
  if s.contains x then s else s ++ [x]

/-- Lookup in an insertion-ordered association list (JS `Map.get`). -/
def alGet {α : Type} (m : List (String × α)) (k : String) : Option α :=
  (m.find? (fun e => e.1 == k)).map (fun e => e.2)

/-- `Map.set`: overwrite the (unique) entry in place when the key exists, else
append; insertion order is preserved either way.  The maps built in this
development never hold duplicate keys. -/
def alSet {α : Type} : List (String × α) → String → α → List (String × α)
  | [], k, v => [(k, v)]
  | a :: t, k, v => if a.1 == k then (a.1, v) :: t else a :: alSet t k v

/-- Adjacency structure of `buildAdjacency`: `Map<string, Set<string>>`. -/
abbrev Adj := List (String × List String)

/-- `adj.get(k) || []`. -/
def adjGet (adj : Adj) (k : String) : List String :=
  (alGet adj k).getD []

/-! ### Character/string helpers shared by the regex translations -/

/-- Character class `[A-Za-z_$]` (start of a JS identifier). -/
def isWordStart (c : Char) : Bool :=
  (c ≥ 'A' && c ≤ 'Z') || (c ≥ 'a' && c ≤ 'z') || c == '_' || c == '$'

/-- Character class `[A-Za-z0-9_$]`. -/
def isWordDollar (c : Char) : Bool :=
  isWordStart c || (c ≥ '0' && c ≤ '9')

/-- Character class `[A-Za-z0-9_]` (JS `\w`). -/
def isWordChar (c : Char) : Bool :=
  (c ≥ 'A' && c ≤ 'Z') || (c ≥ 'a' && c ≤ 'z') || (c ≥ '0' && c ≤ '9') || c == '_'

/-- Substring test on character lists (JS `String.includes` / an unanchored
regex match of a literal). -/
def subList (needle : List Char) : List Char → Bool
  | [] => needle.isPrefixOf []
  | c :: cs => needle.isPrefixOf (c :: cs) || subList needle cs

/-- Substring test on strings. -/
def containsSub (hay needle : String) : Bool :=
  subList needle.data hay.data

/-! ### `analyzer.ts` — `extractTypeNameFromImportish` -/

/-- Match of the tail regex `/\.([A-Za-z0-9_]+)$/`: the string must end in a
dot followed by one or more word characters; returns the captured segment. -/
def tailNameMatch (s : String) : Option String :=
  let rev := s.data.reverse
  let seg := rev.takeWhile isWordChar
  match rev.drop seg.length with
  | '.' :: _ => if seg.isEmpty then none else some (String.mk seg.reverse)
  | _ => none

/-- Attempt of `/import\([^)]+\)\.([A-Za-z_$][A-Za-z0-9_$]*)/` anchored at the
start of `l`.  `[^)]+` necessarily stops right before the first `)` after
`import(`, so the match shape is fixed. -/
def tryComplexAt (l : List Char) : Option String :=
  if ("import(".data).isPrefixOf l then
    let rest := l.drop 7
    let inner := rest.takeWhile (fun c => c ≠ ')')
    match rest.drop inner.length with
    | ')' :: '.' :: c :: cs =>
      if decide (1 ≤ inner.length) && isWordStart c then
        some (String.mk (c :: cs.takeWhile isWordDollar))
      else none
    | _ => none
  else none

/-- Left-to-right scan of the complex-import regex over all start positions. -/
def complexImportScan : List Char → Option String
  | [] => none
  | c :: cs =>
    match tryComplexAt (c :: cs) with
    | some r => some r
    | none => complexImportScan cs

/-- `extractTypeNameFromImportish` (`analyzer.ts`): handles
`import("...").TypeName` and plain identifiers. -/
def extractTypeNameFromImportish (expr : String) : String :=
  match complexImportScan expr.data with
  | some ident => ident
  | none =>
    match tailNameMatch expr with
    | some n => n
    | none => expr

/-! ### `analyzer.ts` — `collectRefsFromProp` and `buildAdjacency` -/

mutual

/-- `collectRefsFromProp` (`analyzer.ts`).  Note the source quirks kept here:
a reference is collected only when its `value` is truthy (nonempty) and not
`"__type"`; for `typeOperator`/`mapped` the chain `value ?? trueType ?? ...`
selects `value`, while for `conditional` (which has no `value` field) it
selects `trueType` only. -/
def collectRefsFromProp (pv : PV) (acc : List String) : List String :=
  match pv with
  | .mk _ core =>
    match core with
    | .reference v _ =>
      if v != "" && v != "__type" then lsAdd acc (extractTypeNameFromImportish v)
      else acc
    | .union vs => collectRefsList vs acc
    | .intersection vs => collectRefsList vs acc
    | .array vs => collectRefsList vs acc
    | .tuple vs => collectRefsList vs acc
    | .record vs => collectRefsList vs acc
    | .promise vs => collectRefsList vs acc
    | .object ps => collectRefsProps ps acc
    | .typeOperator _ v => collectRefsFromProp v acc
    | .mapped _ _ v => collectRefsFromProp v acc
    | .conditional _ _ t _ => collectRefsFromProp t acc
    | _ => acc

def collectRefsList : List PV → List String → List String
  | [], acc => acc
  | v :: vs, acc => collectRefsList vs (collectRefsFromProp v acc)

def collectRefsProps : List AProp → List String → List String
  | [], acc => acc
  | .mk _ _ pv :: ps, acc => collectRefsProps ps (collectRefsFromProp pv acc)

end

/-- Ensure a key is present in the adjacency map (`if (!adj.has(k)) adj.set(k, new Set())`). -/
def ensureKey (adj : Adj) (k : String) : Adj :=
  if adj.any (fun e => e.1 == k) then adj else adj ++ [(k, [])]

/-- `addEdge` from `buildAdjacency`; self-edges are kept deliberately. -/
def addEdge (adj : Adj) (fr tgt : String) : Adj :=
  let adj := ensureKey adj fr
  alSet adj fr (lsAdd (adjGet adj fr) tgt)

/-- Instance branch of `buildAdjacency`: each property's references are
collected directly into the (mutable in JS) set of the owning entity. -/
def instPropsStep (fr : String) : Adj → List AProp → Adj
  | adj, [] => adj
  | adj, p :: ps =>
    instPropsStep fr (alSet adj fr (collectRefsFromProp p.pv (adjGet adj fr))) ps

/-- Processing of one entity inside `buildAdjacency`'s loop. -/
def buildAdjacencyStep (adj : Adj) (e : Entity) : Adj :=
  let adj := ensureKey adj e.name
  match e.kind with
  | .instanceK =>
    let adj := instPropsStep e.name adj e.properties
    e.inherits.foldl
      (fun adj base => addEdge adj e.name (extractTypeNameFromImportish base.expr)) adj
  | .unionK =>
    e.values.foldl
      (fun adj v =>
        (collectRefsFromProp v []).foldl (fun adj r => addEdge adj e.name r) adj)
      adj
  | .aliasK =>
    e.aliasEntities.foldl
      (fun adj ent => addEdge adj e.name (extractTypeNameFromImportish ent)) adj
  | .arrayK =>
    (collectRefsFromProp e.value []).foldl (fun adj r => addEdge adj e.name r) adj
  | _ => adj

/-- `buildAdjacency` (`analyzer.ts`). -/
def buildAdjacency (entities : List Entity) : Adj :=
  entities.foldl buildAdjacencyStep []

/-! ### `analyzer.ts` — `computeSCC` (Tarjan)

The JS recursion over the mutable closure state is written with an explicit
state record and a fuel argument; `computeSCC` supplies a fuel that exceeds any
possible nesting of `strongconnect`/successor-loop steps for the given map. -/

structure TarjanSt where
  index : Nat
  indices : List (String × Nat)
  lowlink : List (String × Nat)
  onStack : List String
  stack : List String
  sccs : List (List String)

/-- `Math.min(a!, b!)` over two lowlink/index lookups; the source asserts both
entries exist (`!`), so the `0` default is never taken on reachable states. -/
def stMin (a b : Option Nat) : Nat :=
  (a.getD 0).min (b.getD 0)

/-- Pop loop closing a component:
`do { w = stack.pop(); if (w) { onStack.delete(w); comp.push(w); } } while (w && w !== v)`.
The stack is kept top-first (JS pushes/pops at the array end).  Both `if (w)`
and the loop condition test JS string truthiness, so popping the
empty-string vertex skips the body and exits the loop without reaching `v`. -/
def popUntil (v : String) :
    List String → List String → List String → List String × List String × List String
  | [], onStack, comp => ([], onStack, comp)
  | w :: rest, onStack, comp =>
    if w == "" then (rest, onStack, comp)
    else
      let onStack := onStack.filter (fun x => x ≠ w)
      let comp := comp ++ [w]
      if w == v then (rest, onStack, comp) else popUntil v rest onStack comp

mutual

/-- `strongconnect` body.  Fuel 0 is unreachable under the bound chosen in
`computeSCC`. -/
def strongconnect (adj : Adj) : Nat → String → TarjanSt → TarjanSt
  | 0, _, st => st
  | fuel + 1, v, st =>
    let st : TarjanSt :=
      { st with
        indices := alSet st.indices v st.index
        lowlink := alSet st.lowlink v st.index
        index := st.index + 1
        stack := v :: st.stack
        onStack := lsAdd st.onStack v }
    let st := scSuccs adj fuel v (adjGet adj v) st
    if alGet st.lowlink v == alGet st.indices v then
      let popped := popUntil v st.stack st.onStack []
      { st with
        stack := popped.1
        onStack := popped.2.1
        sccs := st.sccs ++ [popped.2.2] }
    else st

/-- Loop `for (const w of adj.get(v) || [])` inside `strongconnect`. -/
def scSuccs (adj : Adj) : Nat → String → List String → TarjanSt → TarjanSt
  | 0, _, _, st => st
  | _ + 1, _, [], st => st
  | fuel + 1, v, w :: ws, st =>
    let st :=
      if (alGet st.indices w).isNone then
        let st := strongconnect adj fuel w st
        { st with lowlink := alSet st.lowlink v (stMin (alGet st.lowlink v) (alGet st.lowlink w)) }
      else if st.onStack.contains w then
        { st with lowlink := alSet st.lowlink v (stMin (alGet st.lowlink v) (alGet st.indices w)) }
      else st
    scSuccs adj fuel v ws st

end

/-- Fuel bound for the Tarjan traversal of `adj`: comfortably larger than the
number of vertices plus the total successor count, squared. -/
def tarjanFuel (adj : Adj) : Nat :=
  let total := adj.length + adj.foldl (fun n e => n + e.2.length) 0
  (total + 2) * (total + 2)

/-- `computeSCC` (`analyzer.ts`): outer loop over the map keys. -/
def computeSCC (adj : Adj) : List (List String) :=
  let st0 : TarjanSt := ⟨0, [], [], [], [], []⟩
  let final :=
    adj.foldl
      (fun st e =>
        if (alGet st.indices e.1).isNone then strongconnect adj (tarjanFuel adj) e.1 st
        else st)
      st0
  final.sccs

/-- Pipeline glue from `typemockr.ts`: `nodeToScc` maps every member of every
component to that component (as a set). -/
def buildNodeToScc (sccs : List (List String)) : List (String × List String) :=
  sccs.foldl
    (fun m comp =>
      let compSet := comp.foldl lsAdd []
      comp.foldl (fun m n => alSet m n compSet) m)
    []

/-! ### `typemockr.ts` — memoized reachability (`reachableFrom`) -/

/-- Visited-set DFS (`function dfs(n)` in `reachableFrom`). -/
def dfsVisit (adj : Adj) : Nat → String → List String → List String
  | 0, _, visited => visited
  | fuel + 1, n, visited =>
    if visited.contains n then visited
    else
      let visited := visited ++ [n]
      (adjGet adj n).foldl (fun vis m => dfsVisit adj fuel m vis) visited

/-- Fuel bound for the DFS: more than the number of distinct names in the map. -/
def dfsFuel (adj : Adj) : Nat :=
  adj.length + adj.foldl (fun n e => n + e.2.length) 0 + 2

/-- `reachableFrom` (`typemockr.ts`): DFS from `node`, then remove `node`
itself unless it has an explicit self-edge. -/
def reachableFrom (adj : Adj) (node : String) : List String :=
  let visited := dfsVisit adj (dfsFuel adj) node []
  let hasSelf := (adjGet adj node).contains node
  if hasSelf then visited else visited.filter (fun x => x ≠ node)

/-! ### `analyzer.ts` — `annotateEntityWithRecursion` -/

/-- `canLeadToRecursionFrom`, abstracted over the owner's recursion state and
the memoized reachability function the pipeline passes in. -/
def canLeadToRecursionFrom (inRecursion : Bool) (targetSet : List String)
    (reachable : String → List String) (typeName : String) : Bool :=
  if !inRecursion then false
  else if targetSet.contains typeName then true
  else targetSet.any (fun t => (reachable typeName).contains t)

mutual

/-- `annotatePropValue`: flags reference leaves whose target can lead back to
the owner and reports `recursion encountered` upward.  Composite nodes are
rebuilt via object spread, which keeps their own `recursiveEdge` untouched.
An empty `array` payload makes the source read `.type` of `undefined`. -/
def annotatePropValue (canLead : String → Bool) (pv : PV) : Except JsErr (PV × Bool) :=
  match pv with
  | .mk re core =>
    match core with
    | .reference v loc =>
      let typeName := extractTypeNameFromImportish v
      let leads := canLead typeName
      .ok (.mk (if leads then true else re) (.reference v loc), leads)
    | .array vs =>
      match vs with
      | [] => .error .typeError
      | x :: _ =>
        match annotatePropValue canLead x with
        | .error e => .error e
        | .ok (inner, l) => .ok (.mk re (.array [inner]), l)
    | .tuple vs =>
      match annotateValues canLead vs with
      | .error e => .error e
      | .ok (nvs, l) => .ok (.mk re (.tuple nvs), l)
    | .union vs =>
      match annotateValues canLead vs with
      | .error e => .error e
      | .ok (nvs, l) => .ok (.mk re (.union nvs), l)
    | .intersection vs =>
      match annotateValues canLead vs with
      | .error e => .error e
      | .ok (nvs, l) => .ok (.mk re (.intersection nvs), l)
    | .record vs =>
      match annotateValues canLead vs with
      | .error e => .error e
      | .ok (nvs, l) => .ok (.mk re (.record nvs), l)
    | .promise vs =>
      match annotateValues canLead vs with
      | .error e => .error e
      | .ok (nvs, l) => .ok (.mk re (.promise nvs), l)
    | .object ps =>
      match annotateProps canLead ps with
      | .error e => .error e
      | .ok (nps, l) => .ok (.mk re (.object nps), l)
    | .typeOperator op v =>
      match annotatePropValue canLead v with
      | .error e => .error e
      | .ok (nv, l) => .ok (.mk re (.typeOperator op nv), l)
    | .mapped param constr v =>
      match annotatePropValue canLead v with
      | .error e => .error e
      | .ok (nv, l) => .ok (.mk re (.mapped param constr nv), l)
    | .conditional c ext t f =>
      match annotatePropValue canLead c with
      | .error e => .error e
      | .ok (t1, l1) =>
        match annotatePropValue canLead ext with
        | .error e => .error e
        | .ok (t2, l2) =>
          match annotatePropValue canLead t with
          | .error e => .error e
          | .ok (t3, l3) =>
            match annotatePropValue canLead f with
            | .error e => .error e
            | .ok (t4, l4) =>
              .ok (.mk re (.conditional t1 t2 t3 t4), l1 || l2 || l3 || l4)
    | _ => .ok (.mk re core, false)

def annotateValues (canLead : String → Bool) :
    List PV → Except JsErr (List PV × Bool)
  | [] => .ok ([], false)
  | v :: vs =>
    match annotatePropValue canLead v with
    | .error e => .error e
    | .ok (nv, l1) =>
      match annotateValues canLead vs with
      | .error e => .error e
      | .ok (nvs, l2) => .ok (nv :: nvs, l1 || l2)

/-- `annotateProperty`: re-annotates the property's own value node and, when
recursion was encountered below, sets `recursiveEdge` on the merged property. -/
def annotateProperty (canLead : String → Bool) : AProp → Except JsErr (AProp × Bool)
  | .mk nm opt pv =>
    match annotatePropValue canLead pv with
    | .error e => .error e
    | .ok (nv, leads) =>
      .ok (.mk nm opt (if leads then nv.setReTrue else nv), leads)

def annotateProps (canLead : String → Bool) :
    List AProp → Except JsErr (List AProp × Bool)
  | [] => .ok ([], false)
  | p :: ps =>
    match annotateProperty canLead p with
    | .error e => .error e
    | .ok (np, l1) =>
      match annotateProps canLead ps with
      | .error e => .error e
      | .ok (nps, l2) => .ok (np :: nps, l1 || l2)

end

/-- `annotateEntityWithRecursion` (`analyzer.ts`). -/
def annotateEntityWithRecursion (entity : Entity) (adj : Adj)
    (nodeToScc : List (String × List String)) (reachable : String → List String) :
    Except JsErr Entity :=
  let scc := (alGet nodeToScc entity.name).getD []
  let hasSelfEdge := (adjGet adj entity.name).contains entity.name
  let inRecursion := decide (1 < scc.length) || hasSelfEdge
  let targetSet := if scc.length != 0 then scc else [entity.name]
  let cycleGroup := if inRecursion then some targetSet else none
  let canLead := canLeadToRecursionFrom inRecursion targetSet reachable
  match entity.kind with
  | .instanceK =>
    match annotateProps canLead entity.properties with
    | .error e => .error e
    | .ok (nps, _) =>
      .ok { entity with hasRecursion := inRecursion, cycleGroup := cycleGroup,
                        properties := nps }
  | .unionK =>
    match annotateValues canLead entity.values with
    | .error e => .error e
    | .ok (nvs, _) =>
      .ok { entity with hasRecursion := inRecursion, cycleGroup := cycleGroup,
                        values := nvs }
  | .arrayK =>
    match annotatePropValue canLead entity.value with
    | .error e => .error e
    | .ok (nv, _) =>
      .ok { entity with hasRecursion := inRecursion, cycleGroup := cycleGroup,
                        value := nv }
  | _ => .ok { entity with hasRecursion := inRecursion, cycleGroup := cycleGroup }

/-! ### `category.ts` — wildcard pattern compilation and matching

`generateRegexp` escapes `.`, expands `*` to `.*?`, anchors with `^...$` and
compiles with the `i` flag.  For patterns made of word characters, dots and
stars (the only shapes the configuration tables use), the compiled regex matches a
path iff the wildcard-match below succeeds: non-star characters match
themselves case-insensitively and `*` absorbs any run of characters other than
line terminators (JS `.`); laziness of `.*?` does not affect the boolean
outcome of an anchored `test`. -/

/-- JS regex line terminators, which `.` does not match. -/
def reNewline (c : Char) : Bool :=
  c == '\n' || c == '\r' || c.val == 0x2028 || c.val == 0x2029

/-- Fueled wildcard matcher; fuel larger than `|pattern| + |path|` is exact. -/
def wildMatchF : Nat → List Char → List Char → Bool
  | 0, _, _ => false
  | _ + 1, [], s => s.isEmpty
  | fuel + 1, '*' :: ps, s =>
    wildMatchF fuel ps s ||
      (match s with
       | [] => false
       | c :: cs => !reNewline c && wildMatchF fuel ('*' :: ps) cs)
  | fuel + 1, p :: ps, s =>
    match s with
    | [] => false
    | c :: cs => p.toLower == c.toLower && wildMatchF fuel ps cs

/-- `generateRegexp(pattern).test(path)`. -/
def generateRegexpTest (pattern path : String) : Bool :=
  wildMatchF (pattern.length + path.length + 1) pattern.data path.data

/-- `defineGeneratorMatchers` (`category.ts`): flatten the normalized
`expression → patterns` table into `(pattern, expression)` matcher pairs, in
table order and pattern order. -/
def defineGeneratorMatchers (mapping : List (String × List String)) :
    List (String × String) :=
  mapping.foldl (fun acc e => acc ++ e.2.map (fun p => (p, e.1))) []

/-- The closure returned by `defineGeneratorMatchers`:
`matchers.filter(([re]) => re.test(path)).at(0)?.[1]`. -/
def inferGeneratorFun (matchers : List (String × String)) (path : String) :
    Option String :=
  ((matchers.filter (fun m => generateRegexpTest m.1 path)).head?).map (fun m => m.2)

/-! ### `faker-infer.ts` — configuration and resolution -/

/-- A value of the (dynamically typed) mappings record: either a generator
expression (new style `pattern → expression`) or a pattern list (legacy
`expression → patterns`). -/
inductive MapVal where
  | s (v : String)
  | l (vs : List String)

/-- Append `p` to the pattern group of generator `g`, creating the group on
first sight (JS object key insertion order). -/
def addToGroup (acc : List (String × List String)) (g p : String) :
    List (String × List String) :=
  if acc.any (fun e => e.1 == g) then
    acc.map (fun e => if e.1 == g then (e.1, e.2 ++ [p]) else e)
  else acc ++ [(g, [p])]

/-- New-style normalization in `setMappings`: convert `pattern → generator`
entries to `generator → [patterns]`, skipping non-string generator values. -/
def normalizeNewStyle (m : List (String × MapVal)) : List (String × List String) :=
  m.foldl
    (fun acc e =>
      match e.2 with
      | .s g => addToGroup acc g e.1
      | .l _ => acc)
    []

/-- Legacy branch: the record is cast to `Record<string, string[]>`; a string
value would make `patterns.forEach` throw inside `defineGeneratorMatchers`. -/
def legacyVals : List (String × MapVal) → Except JsErr (List (String × List String))
  | [] => .ok []
  | (g, .l vs) :: rest =>
    match legacyVals rest with
    | .error e => .error e
    | .ok lm => .ok ((g, vs) :: lm)
  | (_, .s _) :: _ => .error .typeError

/-- `setMappings` (`faker-infer.ts`): shape detection via the first value's
runtime type, then compilation of the matcher list. -/
def setMappings (mappings : Option (List (String × MapVal))) :
    Except JsErr (List (String × String)) :=
  match mappings with
  | none => .ok (defineGeneratorMatchers [])
  | some m =>
    if m.isEmpty then .ok (defineGeneratorMatchers [])
    else
      match m.head? with
      | some (_, .s _) => .ok (defineGeneratorMatchers (normalizeNewStyle m))
      | _ =>
        match legacyVals m with
        | .error e => .error e
        | .ok lm => .ok (defineGeneratorMatchers lm)

/-- Result of invoking the optional mapping-provider callback: a JS value
(`null`/`undefined` modelled as `none`) or a thrown exception. -/
inductive PResult where
  | ok (v : Option String)
  | threw

/-- `inferMapping` (`faker-infer.ts`): `inferGenerator(path) || null`; note the
empty string is falsy and collapses to `null` as well. -/
def inferMapping (matchers : List (String × String)) (path : String) :
    Option String :=
  match inferGeneratorFun matchers path with
  | some s => if s == "" then none else some s
  | none => none

/-- Textual sanity heuristic `/string\.|uuid\(|alphanumeric\(/i`. -/
def sanityRe (s : String) : Bool :=
  containsSub s.toLower "string." || containsSub s.toLower "uuid(" ||
    containsSub s.toLower "alphanumeric("

/-- Per-kind default table (final `switch` of `getFakerGenerator`). -/
def defaultForKind (ty : String) : String :=
  if ty == "any" || ty == "string" then "faker.lorem.words()"
  else if ty == "unknown" then "\x7b\x7d"
  else if ty == "number" then "faker.number.int(10000)"
  else if ty == "boolean" then "faker.datatype.boolean()"
  else if ty == "null" then "null"
  else if ty == "date" then "faker.date.recent()"
  else if ty == "object" then "\x7b\x7d"
  else "faker.lorem.words()"

/-- `getFakerGenerator` (`faker-infer.ts`).  The provider call is wrapped in
`try`/`catch`: a throw is caught and logged and resolution continues with the
static matcher table; a non-null/non-undefined result (including `""`) is
returned verbatim.  A falsy (`""`) name-based match falls to the defaults. -/
def getFakerGenerator (provider : Option (String → String → PResult))
    (matchers : List (String × String)) (ty path : String) : String :=
  let fromProvider : Option String :=
    match provider with
    | some f =>
      match f ty path with
      | .ok (some v) => some v
      | _ => none
    | none => none
  match fromProvider with
  | some v => v
  | none =>
    match inferGeneratorFun matchers path with
    | some nameBased =>
      if nameBased != "" then
        if ty == "number" && sanityRe nameBased then "faker.number.int(10000)"
        else if ty == "date" && sanityRe nameBased then "faker.date.recent()"
        else if ty == "boolean" && sanityRe nameBased then "faker.datatype.boolean()"
        else nameBased
      else defaultForKind ty
    | none => defaultForKind ty

/-! ### `generation.ts` — per-variant value synthesis

The module-level inference state (`setMappings` result and the optional
provider) is threaded explicitly as `GenEnv`.  `generateValue` returns
`Except JsErr (Option String)`: `none` models the `undefined` that the
`function` case returns, and `.error .typeError` models JS `TypeError`s raised
when a string method is invoked on that `undefined` downstream.  The mutual
recursion of the source is structural on the value tree; here it carries a
fuel argument, and `.error .fuel` is an artifact of the embedding that is never
produced when the fuel exceeds the tree depth (call sites use `genFuel`). -/

structure GenEnv where
  provider : Option (String → String → PResult) := none
  matchers : List (String × String) := []

/-- Template-literal coercion `${v}`: `undefined` prints as `"undefined"`. -/
def tmplOpt (v : Option String) : String :=
  v.getD "undefined"

/-- `Array.prototype.join`: `undefined` elements become the empty string. -/
def joinJS (xs : List (Option String)) (sep : String) : String :=
  String.intercalate sep (xs.map (fun v => v.getD ""))

/-- `path.split(".")` destructured as `[entity, ...propPath]`. -/
def pathHeadTail (path : String) : String × List String :=
  match path.splitOn "." with
  | [] => ("", [])
  | e :: rest => (e, rest)

/-- `propPath.map((key) => `["${key}"]`).join("")`. -/
def accessKeys (propPath : List String) : String :=
  String.join (propPath.map (fun k => "[\"" ++ k ++ "\"]"))

/-- Discriminator string of a value node (its JS `type` field). -/
def PVCore.typeTag : PVCore → String
  | .primitive _ => "primitive"
  | .constant _ => "constant"
  | .union _ => "union"
  | .intersection _ => "intersection"
  | .array _ => "array"
  | .tuple _ => "tuple"
  | .object _ => "object"
  | .record _ => "record"
  | .indexSignature _ _ => "indexSignature"
  | .funct _ => "function"
  | .promise _ => "promise"
  | .reference _ _ => "reference"
  | .typeOperator _ _ => "typeOperator"
  | .mapped _ _ _ => "mapped"
  | .conditional _ _ _ _ => "conditional"
  | .enumv _ => "enum"

/-- `generatePrimitive`: plain lookup through the inference engine. -/
def generatePrimitive (env : GenEnv) (v : String) (path : String)
    (_includeTypes : Bool) (_context : Ctx) : String :=
  getFakerGenerator env.provider env.matchers v path

/-- Rendering of a constant payload inside a template literal. -/
def CVal.render : CVal → String
  | .str s => s
  | .num n => toString n
  | .boolv b => if b then "true" else "false"

/-- `generateConstantValue` (`generation.ts`). -/
def generateConstantValue (v : CVal) (path : String) (includeTypes : Bool)
    (isUnionOrEnum : Bool) : String :=
  let value :=
    match v with
    | .str s => "\"" ++ s ++ "\""
    | .num n => toString n
    | .boolv b => if b then "true" else "false"
  if includeTypes && isUnionOrEnum then
    let (entity, propPath) := pathHeadTail path
    if entity != "" && propPath.length != 0 then
      value ++ " as " ++ entity ++ accessKeys propPath
    else if includeTypes then value ++ " as const" else value
  else if includeTypes then value ++ " as const"
  else value

/-- `generateRecordValue`: empty composite, typed when path context allows. -/
def generateRecordValue (path : String) (includeTypes : Bool) : String :=
  if includeTypes then
    let (entity, propPath) := pathHeadTail path
    if entity != "" && propPath.length != 0 then
      "\x7b\x7d as " ++ entity ++ accessKeys propPath
    else "\x7b\x7d"
  else "\x7b\x7d"

/-- `generateReferenceValue` (`generation.ts`).  `re` is the node's
`recursiveEdge` flag and `refVal` its raw `value` string. -/
def generateReferenceValue (re : Bool) (refVal : String) (context : Ctx) : String :=
  let typeName := (tailNameMatch refVal).getD refVal
  if typeName == "__type" then "\x7b\x7d"
  else if context.genericParamSet.contains typeName then
    "mock" ++ typeName ++ "()"
  else if re && context.entityHasRecursion then
    let passOpts :=
      context.typesWithOptions.contains typeName ||
        context.entityName == some typeName
    if passOpts then
      "Mock" ++ typeName ++ "(\x7b\x7d, \x7b depth: depth + 1, maxDepth \x7d)"
    else "Mock" ++ typeName ++ "()"
  else "Mock" ++ typeName ++ "()"

/-- `generateFunctionValue`: logs a diagnostic and returns `undefined`. -/
def generateFunctionValue (_ret : PV) : Option String :=
  none

mutual

/-- `generateValue` (`generation.ts`): variant dispatch.  The `function` case
returns `undefined` (`none`); unknown variants yield a TODO placeholder. -/
def generateValue (env : GenEnv) :
    Nat → PV → String → Bool → Ctx → Except JsErr (Option String)
  | 0, _, _, _, _ => .error .fuel
  | fuel + 1, .mk re core, path, includeTypes, context =>
    match core with
    | .primitive v => .ok (some (generatePrimitive env v path includeTypes context))
    | .constant v => .ok (some (generateConstantValue v path includeTypes false))
    | .reference v _ => .ok (some (generateReferenceValue re v context))
    | .union vs =>
      match generateUnionValue env fuel vs path includeTypes context with
      | .error e => .error e
      | .ok s => .ok (some s)
    | .intersection vs =>
      match generateIntersectionValue env fuel vs path includeTypes context with
      | .error e => .error e
      | .ok s => .ok (some s)
    | .record _ => .ok (some (generateRecordValue path includeTypes))
    | .array vs =>
      match generateArrayValue env fuel vs path includeTypes context with
      | .error e => .error e
      | .ok s => .ok (some s)
    | .object ps =>
      match generateObjectValue env fuel ps path includeTypes context with
      | .error e => .error e
      | .ok s => .ok (some s)
    | .funct ret => .ok (generateFunctionValue ret)
    | other => .ok (some ("\"/* TODO " ++ other.typeTag ++ " */\""))

/-- `generateArrayValue` (`generation.ts`): reference elements become repeated
factory calls, guarded by depth when flagged recursive; other elements are
synthesized then repeated (`value.trim()` faults when the element synthesis
produced `undefined`). -/
def generateArrayValue (env : GenEnv) :
    Nat → List PV → String → Bool → Ctx → Except JsErr String
  | 0, _, _, _, _ => .error .fuel
  | fuel + 1, vs, path, includeTypes, context =>
    match vs with
    | [] => .ok "[]"
    | ty :: _ =>
      match ty with
      | .mk re (.reference refVal _) =>
        let typeName := (tailNameMatch refVal).getD refVal
        if typeName == "__type" then
          if includeTypes then
            let (entity, propPath) := pathHeadTail path
            let keys := if propPath.length != 0 then accessKeys propPath else ""
            .ok ("[] as " ++ entity ++ keys)
          else .ok "[]"
        else if re && context.entityHasRecursion then
          let passOpts :=
            (typeName != "" && context.typesWithOptions.contains typeName) ||
              context.entityName == some typeName
          let inner :=
            if passOpts then
              "Mock" ++ typeName ++ "(\x7b\x7d, \x7b depth: depth + 1, maxDepth \x7d)"
            else "Mock" ++ typeName ++ "()"
          if includeTypes then
            .ok ("depth >= maxDepth ? ([] as " ++ typeName ++
              "[]) : faker.helpers.multiple(() => " ++ inner ++ ")")
          else
            .ok ("depth >= maxDepth ? [] : faker.helpers.multiple(() => " ++ inner ++ ")")
        else if typeName != "" && context.genericParamSet.contains typeName then
          .ok ("faker.helpers.multiple(() => mock" ++ typeName ++ "())")
        else
          .ok ("faker.helpers.multiple(() => Mock" ++ typeName ++ "())")
      | _ =>
        match generateValue env fuel ty path includeTypes context with
        | .error e => .error e
        | .ok none => .error .typeError
        | .ok (some value) =>
          let wrapped :=
            if value.trim.startsWith "\x7b" then "(" ++ value ++ ")" else value
          .ok ("faker.helpers.multiple(() => " ++ wrapped ++ ")")

/-- `generateUnionValue` (`generation.ts`). -/
def generateUnionValue (env : GenEnv) :
    Nat → List PV → String → Bool → Ctx → Except JsErr String
  | 0, _, _, _, _ => .error .fuel
  | fuel + 1, vs, path, includeTypes, context =>
    if vs.length == 0 then .ok "undefined"
    else
      let allReferences := vs.all (fun v =>
        match v with
        | .mk _ (.reference _ _) => true
        | _ => false)
      if allReferences then
        let values := vs.map (fun v =>
          match v with
          | .mk re (.reference valStr _) =>
            let typeName := (tailNameMatch valStr).getD valStr
            if re && context.entityHasRecursion then
              let passOpts :=
                (typeName != "" && context.typesWithOptions.contains typeName) ||
                  context.entityName == some typeName
              if passOpts then
                "Mock" ++ typeName ++ "(\x7b\x7d, \x7b depth: depth + 1, maxDepth \x7d)"
              else "Mock" ++ typeName ++ "()"
            else "Mock" ++ typeName ++ "()"
          | _ => "")
        .ok ("faker.helpers.arrayElement([" ++ String.intercalate ", " values ++ "])")
      else
        let allStringLiterals := vs.all (fun v =>
          match v with
          | .mk _ (.constant (.str _)) => true
          | _ => false)
        if allStringLiterals && vs.length == 1 then
          match vs with
          | .mk _ (.constant (.str s)) :: _ => .ok ("\"" ++ s ++ "\"")
          | _ => .ok ""
        else if allStringLiterals && includeTypes then
          let (entity, propPath) := pathHeadTail path
          let keys := if propPath.length != 0 then accessKeys propPath else ""
          let values := vs.map (fun v =>
            match v with
            | .mk _ (.constant c) => "\"" ++ c.render ++ "\" as " ++ entity ++ keys
            | _ => "")
          .ok ("faker.helpers.arrayElement([" ++ String.intercalate ", " values ++ "])")
        else
          match generateUnionFallback env fuel vs path includeTypes context with
          | .error e => .error e
          | .ok parts =>
            .ok ("faker.helpers.arrayElement([" ++ joinJS parts ", " ++ "])")

def generateUnionFallback (env : GenEnv) :
    Nat → List PV → String → Bool → Ctx → Except JsErr (List (Option String))
  | 0, _, _, _, _ => .error .fuel
  | _ + 1, [], _, _, _ => .ok []
  | fuel + 1, v :: vs, path, includeTypes, context =>
    match generateValue env fuel v path includeTypes context with
    | .error e => .error e
    | .ok s =>
      match generateUnionFallback env fuel vs path includeTypes context with
      | .error e => .error e
      | .ok rest => .ok (s :: rest)

/-- `generateIntersectionValue` (`generation.ts`): spread references, splice
open object/record literals, keep everything else verbatim. -/
def generateIntersectionValue (env : GenEnv) :
    Nat → List PV → String → Bool → Ctx → Except JsErr String
  | 0, _, _, _, _ => .error .fuel
  | fuel + 1, vs, path, includeTypes, context =>
    match generateIntersectionItems env fuel vs path includeTypes context with
    | .error e => .error e
    | .ok parts => .ok ("\x7b " ++ joinJS parts ", " ++ " \x7d")

def generateIntersectionItems (env : GenEnv) :
    Nat → List PV → String → Bool → Ctx → Except JsErr (List (Option String))
  | 0, _, _, _, _ => .error .fuel
  | _ + 1, [], _, _, _ => .ok []
  | fuel + 1, item :: items, path, includeTypes, context =>
    match generateValue env fuel item path includeTypes context with
    | .error e => .error e
    | .ok value =>
      let part : Except JsErr (Option String) :=
        match item with
        | .mk _ (.reference _ _) => .ok (some ("..." ++ tmplOpt value))
        | .mk _ (.object _) | .mk _ (.record _) =>
          match value with
          | none => .error .typeError
          | some s =>
            if s.startsWith "\x7b" && s.endsWith "\x7d" then
              .ok (some ((s.drop 1).dropRight 1))
            else .ok (some s)
        | _ => .ok value
      match part with
      | .error e => .error e
      | .ok p =>
        match generateIntersectionItems env fuel items path includeTypes context with
        | .error e => .error e
        | .ok rest => .ok (p :: rest)

/-- `generateObjectValue` (`generation.ts`): delegate to the referenced factory
when the object is a single reference, else synthesize the sub-properties. -/
def generateObjectValue (env : GenEnv) :
    Nat → List AProp → String → Bool → Ctx → Except JsErr String
  | 0, _, _, _, _ => .error .fuel
  | fuel + 1, ps, path, includeTypes, context =>
    match ps with
    | [.mk _ _ (.mk re (.reference refVal _))] =>
      let typeName := (tailNameMatch refVal).getD refVal
      if re && context.entityHasRecursion then
        let passOpts :=
          (typeName != "" && context.typesWithOptions.contains typeName) ||
            context.entityName == some typeName
        if passOpts then
          .ok ("Mock" ++ typeName ++ "(\x7b\x7d, \x7b depth: depth + 1, maxDepth \x7d)")
        else .ok ("Mock" ++ typeName ++ "()")
      else .ok ("Mock" ++ typeName ++ "()")
    | _ =>
      match generateObjectProps env fuel ps path includeTypes context with
      | .error e => .error e
      | .ok parts =>
        .ok ("\x7b " ++ String.intercalate ", " parts ++ " \x7d")

def generateObjectProps (env : GenEnv) :
    Nat → List AProp → String → Bool → Ctx → Except JsErr (List String)
  | 0, _, _, _, _ => .error .fuel
  | _ + 1, [], _, _, _ => .ok []
  | fuel + 1, item :: items, path, includeTypes, context =>
    match item with
    | .mk nm opt pv =>
      match generateProperty env fuel (.mk nm opt pv) nm path includeTypes context with
      | .error e => .error e
      | .ok s =>
        match generateObjectProps env fuel items path includeTypes context with
        | .error e => .error e
        | .ok rest => .ok (s :: rest)

/-- `generateProperty` (`generation.ts`): synthesize the value at the extended
path, retype bare `{}` literals, and wrap optionals in a maybe-combinator
(whose `.trim()` call faults on `undefined` values). -/
def generateProperty (env : GenEnv) :
    Nat → AProp → String → String → Bool → Ctx → Except JsErr String
  | 0, _, _, _, _, _ => .error .fuel
  | fuel + 1, .mk _ opt pv, nm, path, includeTypes, context =>
    match generateValue env fuel pv (path ++ "." ++ nm) includeTypes context with
    | .error e => .error e
    | .ok value0 =>
      let value : Option String :=
        match value0 with
        | some s =>
          if includeTypes && s.trim == "\x7b\x7d" then
            let fullPath := path ++ "." ++ nm
            let (entity, propPathParts) := pathHeadTail fullPath
            if entity != "" && propPathParts.length != 0 then
              some ("\x7b\x7d as " ++ entity ++ accessKeys propPathParts)
            else some s
          else some s
        | none => none
      if opt then
        match value with
        | none => .error .typeError
        | some v =>
          let wrapped := if v.trim.startsWith "\x7b" then "(" ++ v ++ ")" else v
          .ok ("\"" ++ nm ++ "\": faker.helpers.maybe(() => " ++ wrapped ++ ")")
      else .ok ("\"" ++ nm ++ "\": " ++ tmplOpt value)

end

mutual

/-- Executable size of a value tree (used only to pick sufficient fuel). -/
def pvSz : PV → Nat
  | .mk _ core => coreSz core + 1

def coreSz : PVCore → Nat
  | .primitive _ => 1
  | .constant _ => 1
  | .union vs => pvListSz vs + 1
  | .intersection vs => pvListSz vs + 1
  | .array vs => pvListSz vs + 1
  | .tuple vs => pvListSz vs + 1
  | .object ps => propListSz ps + 1
  | .record vs => pvListSz vs + 1
  | .indexSignature k v => pvSz k + pvSz v + 1
  | .funct ret => pvSz ret + 1
  | .promise vs => pvListSz vs + 1
  | .reference _ _ => 1
  | .typeOperator _ v => pvSz v + 1
  | .mapped _ c v => pvSz c + pvSz v + 1
  | .conditional a b c d => pvSz a + pvSz b + pvSz c + pvSz d + 1
  | .enumv _ => 1

def pvListSz : List PV → Nat
  | [] => 0
  | v :: vs => pvSz v + pvListSz vs + 1

def propListSz : List AProp → Nat
  | [] => 0
  | .mk _ _ pv :: ps => pvSz pv + propListSz ps + 1

end

/-- Fuel bound sufficient for `generateValue` on `pv` (each tree level consumes
at most four fuel steps). -/
def genFuel (pv : PV) : Nat :=
  4 * pvSz pv + 4

/-! ### `generation.ts` — `stripUnusedOptionsFromText`

The guard is the regex test `/\bdepth\b|\bmaxDepth\b|__options/`; when it hits,
the text is returned unchanged.  The two replacement passes below implement the
signature rewrite and the destructuring-line removal; they can only ever fire
on text containing `__options` or `depth`, which the guard has already ruled
out, and are therefore dead code in the source as well. -/

/-- JS `\s` for the ASCII range (the emitted factory text contains no Unicode
whitespace). -/
def isJsSpace (c : Char) : Bool :=
  c == ' ' || c == '\t' || c == '\n' || c == '\r' || c.val == 0x0b || c.val == 0x0c

/-- Occurrence of word `w` at some position with `\b` on both sides.  `prev` is
the character immediately before the scan position. -/
def wordOccursAux (w : List Char) (prev : Option Char) : List Char → Bool
  | [] => false
  | c :: cs =>
    (w.isPrefixOf (c :: cs) &&
      (match prev with
       | none => true
       | some p => !isWordChar p) &&
      (match (c :: cs).drop w.length with
       | [] => true
       | d :: _ => !isWordChar d)) ||
    wordOccursAux w (some c) cs

/-- `\bw\b` occurs somewhere in `text` (for nonempty word-character words). -/
def wordOccurs (w text : String) : Bool :=
  wordOccursAux w.data none text.data

/-- The keep-guard `/\bdepth\b|\bmaxDepth\b|__options/.test(text)`. -/
def stripGuard (text : String) : Bool :=
  wordOccurs "depth" text || wordOccurs "maxDepth" text ||
    containsSub text "__options"

/-- Tail of the signature regex after the lazy argument capture:
`,?\s*__options\s*(?:[:=][^,)]*)?(,?\s*)?\)`; returns the remainder after the
closing parenthesis on success. -/
def matchOptionsTail (l : List Char) : Option (List Char) :=
  let l := match l with
    | ',' :: rest => rest
    | _ => l
  let l := l.dropWhile isJsSpace
  if ("__options".data).isPrefixOf l then
    let l := (l.drop 9).dropWhile isJsSpace
    let l := match l with
      | ':' :: rest => rest.dropWhile (fun c => c ≠ ',' && c ≠ ')')
      | '=' :: rest => rest.dropWhile (fun c => c ≠ ',' && c ≠ ')')
      | _ => l
    let l := match l with
      | ',' :: rest => rest.dropWhile isJsSpace
      | _ => l.dropWhile isJsSpace
    match l with
    | ')' :: rest => some rest
    | _ => none
  else none

/-- Lazy scan of `([^)]*?)` followed by `matchOptionsTail`: returns the
captured arguments and the remainder after `)` for the shortest viable split. -/
def lazyArgsScan : List Char → List Char → Option (List Char × List Char)
  | acc, l =>
    match matchOptionsTail l with
    | some rest => some (acc, rest)
    | none =>
      match l with
      | [] => none
      | ')' :: _ => none
      | c :: cs => lazyArgsScan (acc ++ [c]) cs

/-- Head of the signature regex: `function (Mock[A-Za-z0-9_]+)\(`; returns the
function name and the remainder after `(`. -/
def matchFunctionHead (l : List Char) : Option (List Char × List Char) :=
  if ("function Mock".data).isPrefixOf l then
    let rest := l.drop 13
    let nm := rest.takeWhile isWordChar
    if nm.isEmpty then none
    else
      match rest.drop nm.length with
      | '(' :: after => some ("Mock".data ++ nm, after)
      | _ => none
  else none

/-- Replacement argument cleanup `args.replace(/,\s*$/, "")`. -/
def dropTrailingComma (args : List Char) : List Char :=
  let rev := args.reverse
  let rev' := rev.dropWhile isJsSpace
  match rev' with
  | ',' :: rest => rest.reverse
  | _ => args

/-- Global pass of the signature-rewrite regex replacement. -/
def replaceSignaturePass : Nat → List Char → List Char
  | 0, l => l
  | fuel + 1, l =>
    match l with
    | [] => []
    | c :: cs =>
      match matchFunctionHead l with
      | some (fn, afterParen) =>
        match lazyArgsScan [] afterParen with
        | some (args, rest) =>
          "function ".data ++ fn ++ ['('] ++ dropTrailingComma args ++ [')'] ++
            replaceSignaturePass fuel rest
        | none => c :: replaceSignaturePass fuel cs
      | none => c :: replaceSignaturePass fuel cs

/-- Matcher for the destructuring regex
`\n?\s*const\s*\{\s*depth\s*=\s*0,\s*maxDepth\s*=\s*2\s*\}\s*=\s*__options;?`;
returns the remainder after the match. -/
def matchDestructure (l : List Char) : Option (List Char) :=
  let l := match l with
    | '\n' :: rest => rest
    | _ => l
  let l := l.dropWhile isJsSpace
  let step (kw : String) (l : List Char) : Option (List Char) :=
    if (kw.data).isPrefixOf l then some ((l.drop kw.length).dropWhile isJsSpace)
    else none
  match step "const" l with
  | none => none
  | some l =>
    match step "\x7b" l with
    | none => none
    | some l =>
      match step "depth" l with
      | none => none
      | some l =>
        match step "=" l with
        | none => none
        | some l =>
          match l with
          | '0' :: ',' :: l =>
            let l := l.dropWhile isJsSpace
            match step "maxDepth" l with
            | none => none
            | some l =>
              match step "=" l with
              | none => none
              | some l =>
                match l with
                | '2' :: l =>
                  let l := l.dropWhile isJsSpace
                  match step "\x7d" l with
                  | none => none
                  | some l =>
                    match step "=" l with
                    | none => none
                    | some l =>
                      if ("__options".data).isPrefixOf l then
                        let l := l.drop 9
                        match l with
                        | ';' :: rest => some rest
                        | _ => some l
                      else none
                | _ => none
          | _ => none

/-- Global pass of the destructuring-line removal. -/
def replaceDestructurePass : Nat → List Char → List Char
  | 0, l => l
  | fuel + 1, l =>
    match l with
    | [] => []
    | c :: cs =>
      match matchDestructure l with
      | some rest => replaceDestructurePass fuel rest
      | none => c :: replaceDestructurePass fuel cs

/-- `stripUnusedOptionsFromText` (`generation.ts`). -/
def stripUnusedOptionsFromText (text : String) : String :=
  if stripGuard text then text
  else
    let t1 := replaceSignaturePass (text.length + 1) text.data
    let t2 := replaceDestructurePass (t1.length + 1) t1
    String.mk t2

/-! ### `generation.ts` — emission selection among duplicate names -/

/-- The fixed `precedence` record of `generate`. -/
def precedenceRank : EKind → Nat
  | .instanceK => 7
  | .enumK => 6
  | .aliasK => 5
  | .unionK => 4
  | .arrayK => 3
  | .primitiveK => 3
  | .constantK => 2
  | .placeholderK => 1

/-- One entity of the `generate` pre-scan: record its kind under its name
unless a kind of greater-or-equal precedence is already recorded. -/
def bestKindStep (m : List (String × EKind)) (it : Entity) : List (String × EKind) :=
  match alGet m it.name with
  | none => alSet m it.name it.kind
  | some prev =>
    if precedenceRank prev < precedenceRank it.kind then alSet m it.name it.kind
    else m

/-- Pre-scan of `generate`: highest-precedence kind per name, strictly-greater
updates only (first occurrence wins ties). -/
def nameToBestKind (data : List Entity) : List (String × EKind) :=
  data.foldl bestKindStep []

/-- The emission filter of `generate`: keep entities whose kind equals the
best kind recorded for their name. -/
def emittedEntities (data : List Entity) : List Entity :=
  data.filter (fun it => alGet (nameToBestKind data) it.name == some it.kind)

/-! ### `typemockr.ts` — base resolution and transitive property collection -/

/-- `entityByName`: a `Map` filled in order, so the last entity of a given
name wins. -/
def entityByName (allEntities : List Entity) : List (String × Entity) :=
  allEntities.foldl (fun m e => alSet m e.name e) []

/-- `resolveBaseEntity` (`typemockr.ts`): exact name+location match in the
global set, then the per-file map, then the global name map.  `path.resolve`
equality is modelled as string equality of the stored file names. -/
def resolveBaseEntity (allEntities : List Entity)
    (fileEntityMap : List (String × Entity)) (expr : String)
    (loc : Option String) : Option Entity :=
  let baseName := extractTypeNameFromImportish expr
  let byLoc : Option Entity :=
    match loc with
    | some lf =>
      allEntities.find? (fun e => e.name == baseName && e.location == some lf)
    | none => none
  match byLoc with
  | some e => some e
  | none =>
    match alGet fileEntityMap baseName with
    | some e => some e
    | none => alGet (entityByName allEntities) baseName

/-- Push a base's own properties, skipping names already collected. -/
def pushProps : List AProp → List AProp → List AProp
  | out, [] => out
  | out, p :: ps =>
    pushProps (if out.any (fun op => op.name == p.name) then out else out ++ [p]) ps

mutual

/-- Inner `walk` of `collectPropsTransitive`: cycle-safe depth-first traversal
over the base chain carrying the seen-name set and the output list. -/
def walkProps (allEntities : List Entity) (fileMap : List (String × Entity)) :
    Nat → List String → List AProp → String → Option String →
      List String × List AProp
  | 0, seen, out, _, _ => (seen, out)
  | fuel + 1, seen, out, expr, loc =>
    if expr == "" then (seen, out)
    else
      let baseName := extractTypeNameFromImportish expr
      if seen.contains baseName then (seen, out)
      else
        let seen := lsAdd seen baseName
        match resolveBaseEntity allEntities fileMap expr loc with
        | none => (seen, out)
        | some ent =>
          let out := pushProps out ent.properties
          walkBases allEntities fileMap fuel seen out ent.inherits

def walkBases (allEntities : List Entity) (fileMap : List (String × Entity)) :
    Nat → List String → List AProp → List Inh → List String × List AProp
  | 0, seen, out, _ => (seen, out)
  | _ + 1, seen, out, [] => (seen, out)
  | fuel + 1, seen, out, b :: bs =>
    let so := walkProps allEntities fileMap fuel seen out b.expr b.location
    walkBases allEntities fileMap fuel so.1 so.2 bs

end

/-- Fuel bound for `collectPropsTransitive`: every productive step consumes a
fresh base name, of which there are at most one per inheritance entry plus the
start expression. -/
def cptFuel (allEntities : List Entity) (fileMap : List (String × Entity)) : Nat :=
  let t := allEntities.foldl (fun n e => n + e.inherits.length) 0 +
    allEntities.length + fileMap.length + 2
  (t + 2) * (t + 2)

/-- `collectPropsTransitive` (`typemockr.ts`). -/
def collectPropsTransitive (allEntities : List Entity)
    (fileMap : List (String × Entity)) (startExpr : String)
    (startLoc : Option String) : List AProp :=
  (walkProps allEntities fileMap (cptFuel allEntities fileMap) [] [] startExpr
    startLoc).2

/-! ### Spec-side definition used to compare against claim C4

The spec states that pattern resolution scans the configured pattern table in
declaration order and returns the expression of the first matching pattern.
This definition follows those words directly (for the new-style
`pattern → expression` table shape used by the spec's examples) and is compared
against the compiled behaviour of `setMappings`/`defineGeneratorMatchers`. -/

/-- Declaration-order first-match resolution, as the spec words it. -/
def specDeclOrderResolve (table : List (String × String)) (path : String) :
    Option String :=
  (table.find? (fun e => generateRegexpTest e.1 path)).map (fun e => e.2)

/-- Lift a new-style `pattern → expression` table into the dynamic mappings
record shape accepted by `setMappings`. -/
def newStyleTable (t : List (String × String)) : List (String × MapVal) :=
  t.map (fun e => (e.1, .s e.2))

/-- Compiled matcher list for a new-style table (the `setMappings` result;
the new-style branch never faults). -/
def compiledMatchers (t : List (String × String)) : List (String × String) :=
  match setMappings (some (newStyleTable t)) with
  | .ok m => m
  | .error _ => []

/-! ### Predicates used by the claims about recursion annotation -/

/-- A value tree contains — along the path both `collectRefsFromProp` and
`annotatePropValue` traverse — a reference node that resolves to `owner`
(truthy, not `"__type"`, extracted name equal to `owner`).  `array` restricts
to the head element (the annotator only rewrites `value[0]`) and `conditional`
to `trueType` (the only branch `collectRefsFromProp` follows). -/
inductive HasDirectSelfRef (owner : String) : PV → Prop where
  | ref (re : Bool) (v : String) (loc : Option String) :
      v ≠ "" → v ≠ "__type" → extractTypeNameFromImportish v = owner →
      HasDirectSelfRef owner (.mk re (.reference v loc))
  | union_mem (re : Bool) (vs : List PV) (v : PV) :
      v ∈ vs → HasDirectSelfRef owner v →
      HasDirectSelfRef owner (.mk re (.union vs))
  | intersection_mem (re : Bool) (vs : List PV) (v : PV) :
      v ∈ vs → HasDirectSelfRef owner v →
      HasDirectSelfRef owner (.mk re (.intersection vs))
  | tuple_mem (re : Bool) (vs : List PV) (v : PV) :
      v ∈ vs → HasDirectSelfRef owner v →
      HasDirectSelfRef owner (.mk re (.tuple vs))
  | record_mem (re : Bool) (vs : List PV) (v : PV) :
      v ∈ vs → HasDirectSelfRef owner v →
      HasDirectSelfRef owner (.mk re (.record vs))
  | promise_mem (re : Bool) (vs : List PV) (v : PV) :
      v ∈ vs → HasDirectSelfRef owner v →
      HasDirectSelfRef owner (.mk re (.promise vs))
  | array_head (re : Bool) (v : PV) (rest : List PV) :
      HasDirectSelfRef owner v →
      HasDirectSelfRef owner (.mk re (.array (v :: rest)))
  | object_mem (re : Bool) (ps : List AProp) (p : AProp) :
      p ∈ ps → HasDirectSelfRef owner p.pv →
      HasDirectSelfRef owner (.mk re (.object ps))
  | typeOperator_val (re : Bool) (op : String) (v : PV) :
      HasDirectSelfRef owner v →
      HasDirectSelfRef owner (.mk re (.typeOperator op v))
  | mapped_val (re : Bool) (param : String) (constr v : PV) :
      HasDirectSelfRef owner v →
      HasDirectSelfRef owner (.mk re (.mapped param constr v))
  | conditional_true (re : Bool) (c ext t f : PV) :
      HasDirectSelfRef owner t →
      HasDirectSelfRef owner (.mk re (.conditional c ext t f))

mutual

/-- Checker over an annotated tree: every reference node whose extracted type
name equals `owner` carries `recursiveEdge = true`, along the traversal the
annotator performs (`mapped` constraints are not rewritten by the annotator
and are not checked). -/
def selfRefsFlagged (owner : String) : PV → Bool
  | .mk re core =>
    match core with
    | .reference v _ =>
      if extractTypeNameFromImportish v == owner then re else true
    | .union vs => selfRefsFlaggedList owner vs
    | .intersection vs => selfRefsFlaggedList owner vs
    | .array vs => selfRefsFlaggedList owner vs
    | .tuple vs => selfRefsFlaggedList owner vs
    | .record vs => selfRefsFlaggedList owner vs
    | .promise vs => selfRefsFlaggedList owner vs
    | .object ps => selfRefsFlaggedProps owner ps
    | .typeOperator _ v => selfRefsFlagged owner v
    | .mapped _ _ v => selfRefsFlagged owner v
    | .conditional c ext t f =>
      selfRefsFlagged owner c && selfRefsFlagged owner ext &&
        selfRefsFlagged owner t && selfRefsFlagged owner f
    | _ => true

def selfRefsFlaggedList (owner : String) : List PV → Bool
  | [] => true
  | v :: vs => selfRefsFlagged owner v && selfRefsFlaggedList owner vs

def selfRefsFlaggedProps (owner : String) : List AProp → Bool
  | [] => true
  | .mk _ _ pv :: ps => selfRefsFlagged owner pv && selfRefsFlaggedProps owner ps

end

/-! ### Concrete inputs for the per-claim theorems -/

/-- Claim C1 context: emitting inside entity `Node`, which has recursion and
accepts depth options. -/
def ctxC1 : Ctx :=
  { entityName := some "Node", entityHasRecursion := true,
    typesWithOptions := ["Node"] }

/-- Claim C1: a reference to `Node` flagged `recursiveEdge`. -/
def refNodeC1 : PV :=
  .mk true (.reference "Node" none)

/-- Claim C2 counterexample entity: `A` with a property whose value is an
array of arrays of references to `A` (a direct self-reference two composite
levels down). -/
def entC2 : Entity :=
  { name := "A", kind := .instanceK,
    properties := [
      .mk "p" false
        (.mk false (.array [
          .mk false (.array [ .mk false (.reference "A" none) ]) ])) ] }

def entitiesC2 : List Entity := [entC2]

def adjC2 : Adj := buildAdjacency entitiesC2

def annC2 : Except JsErr Entity :=
  annotateEntityWithRecursion entC2 adjC2 (buildNodeToScc (computeSCC adjC2))
    (reachableFrom adjC2)

/-- `recursiveEdge` of the inner (nested) array node of `annC2`'s single
property, an enclosing composite node on the path back to `A`. -/
def innerArrayReC2 (r : Except JsErr Entity) : Option Bool :=
  match r with
  | .ok ent =>
    match ent.properties with
    | [.mk _ _ (.mk _ (.array [ .mk reInner (.array _) ]))] => some reInner
    | _ => none
  | .error _ => none

/-- `recursiveEdge` of the owning property of `annC2`. -/
def propertyReC2 (r : Except JsErr Entity) : Option Bool :=
  match r with
  | .ok ent =>
    match ent.properties with
    | [.mk _ _ (.mk reOuter _)] => some reOuter
    | _ => none
  | .error _ => none

/-- `recursiveEdge` of the leaf reference node of `annC2`. -/
def leafReC2 (r : Except JsErr Entity) : Option Bool :=
  match r with
  | .ok ent =>
    match ent.properties with
    | [.mk _ _ (.mk _ (.array [ .mk _ (.array [ .mk reLeaf (.reference _ _) ]) ]))] =>
      some reLeaf
    | _ => none
  | .error _ => none

/-- `hasRecursion` of an annotation result. -/
def hasRecursionOf (r : Except JsErr Entity) : Option Bool :=
  match r with
  | .ok ent => some ent.hasRecursion
  | .error _ => none

/-- Claim C2 witness property: an array of references to `W`. -/
def propC2W : AProp :=
  .mk "items" false (.mk false (.array [ .mk false (.reference "W" none) ]))

/-- Claim C2 witness entity: `W` with a property that is an array of
references to `W` (isolated self-loop, SCC of size one). -/
def entC2W : Entity :=
  { name := "W", kind := .instanceK, properties := [propC2W] }

def entitiesC2W : List Entity := [entC2W]

def adjC2W : Adj := buildAdjacency entitiesC2W

def annC2W : Except JsErr Entity :=
  annotateEntityWithRecursion entC2W adjC2W (buildNodeToScc (computeSCC adjC2W))
    (reachableFrom adjC2W)

/-- The annotated witness entity (`annC2W` succeeds; the fallback placeholder
is never reached). -/
def outC2W : Entity :=
  match annC2W with
  | .ok e => e
  | .error _ => { name := "", kind := .placeholderK }

/-- Claim C4 counterexample table: two expressions with interleaved pattern
declarations. -/
def tableC4 : List (String × String) :=
  [("B.*", "g1"), ("*.x", "g2"), ("A.*", "g1")]

/-- Claim C4 example table from the spec. -/
def tableC4uuid : List (String × String) :=
  [("*.id", "uuid-expr")]

/-- Claim C6 diamond: `D` extends `B`,`C`; `B`,`C` extend `A`; `shared` is
declared on `A`, `B` and `D`. -/
def strProp (nm : String) : AProp :=
  .mk nm false (.mk false (.primitive "string"))

/-- A property `nm` of the given primitive kind (used to tell apart the
same-named `shared` fields of the diamond members). -/
def kindProp (nm kd : String) : AProp :=
  .mk nm false (.mk false (.primitive kd))

def entA6 : Entity :=
  { name := "A", kind := .instanceK,
    properties := [strProp "a1", kindProp "shared" "number"] }

def entB6 : Entity :=
  { name := "B", kind := .instanceK,
    properties := [strProp "b1", kindProp "shared" "boolean"],
    inherits := [{ expr := "A" }] }

def entC6 : Entity :=
  { name := "C", kind := .instanceK, properties := [strProp "c1"],
    inherits := [{ expr := "A" }] }

def entD6 : Entity :=
  { name := "D", kind := .instanceK,
    properties := [strProp "d1", kindProp "shared" "string"],
    inherits := [{ expr := "B" }, { expr := "C" }] }

def entitiesC6 : List Entity := [entA6, entB6, entC6, entD6]

/-- Claim C6 cyclic base graph: `X` extends `Y` and `Y` extends `X`. -/
def entX6 : Entity :=
  { name := "X", kind := .instanceK, properties := [strProp "x1"],
    inherits := [{ expr := "Y" }] }

def entY6 : Entity :=
  { name := "Y", kind := .instanceK, properties := [strProp "y1"],
    inherits := [{ expr := "X" }] }

def entitiesC6cyc : List Entity := [entX6, entY6]

/-- Claim C7: two same-name entities of the same kind (both `instance`). -/
def xInst1C7 : Entity := { name := "X", kind := .instanceK, properties := [strProp "a"] }

def xInst2C7 : Entity := { name := "X", kind := .instanceK, properties := [strProp "b"] }

/-- Claim C7: an `instance` and a `constant` sharing the name `X`. -/
def xConstC7 : Entity :=
  { name := "X", kind := .constantK, value := .mk false (.constant (.str "x")) }

/-- Claim C8: a non-optional function-typed property named `cb`. -/
def funcPropC8 : AProp :=
  .mk "cb" false (.mk false (.funct (.mk false (.primitive "string"))))

/-- Claim C8: the optional variant of the same property. -/
def funcPropC8opt : AProp :=
  .mk "cb" true (.mk false (.funct (.mk false (.primitive "string"))))

/-- Claim C9 failing input: the factory text `generate` composes for an
instance entity whose recursion runs only through a `record` value — the body
destructures `depth`/`maxDepth` but never uses them. -/
def bodyC9 : String :=
  "export function MockA(overrides = \x7b\x7d, __options = \x7b\x7d) \x7b\n" ++
  "  const \x7b depth = 0, maxDepth = 2 \x7d = __options;\n" ++
  "  const result = \x7b\n" ++
  "        \"x\": \x7b\x7d\n" ++
  "  \x7d;\n" ++
  "  return \x7b ...result, ...overrides \x7d\n" ++
  "\x7d\n"

/-- One step of the best-kind fold, on the kind level: keep the previous kind
unless the new one ranks strictly higher. -/
def kindStep (acc : Option EKind) (k : EKind) : Option EKind :=
  match acc with
  | none => some k
  | some p => if precedenceRank p < precedenceRank k then some k else some p

/-- The best kind of a list of kinds, per `nameToBestKind`'s update rule. -/
def kindFold (ks : List EKind) : Option EKind :=
  ks.foldl kindStep none

/-- Claim C3 failing input: an adjacency map whose two vertices — the
empty-string name and `a` — form a two-cycle. -/
def adjC3 : Adj := [("", ["a"]), ("a", [""])]

/-- The keys of an adjacency map (its vertex set, as the claim reads it). -/
def adjKeys (adj : Adj) : List String := adj.map Prod.fst

/-! ## Theorems -/

/-- Filtering then taking the head is finding the first match. -/
theorem head_filter_eq_find {α : Type} (p : α → Bool) (l : List α) :
    (l.filter p).head? = l.find? p := by
  induction l with
  | nil => rfl
  | cons a t ih =>
    by_cases h : p a <;> simp [List.filter_cons, List.find?_cons, h, ih]

/-- C10: synthesizing a union `PropertyValue` with zero members returns the
literal expression text "undefined" (not a pick-one combinator) and raises no
error, both via `generateUnionValue` directly and via `generateValue`
dispatch, for any fuel that lets the call start. -/
theorem claim_C10 (env : GenEnv) (fuel : Nat) (path : String)
    (includeTypes : Bool) (context : Ctx) (re : Bool) :
    generateUnionValue env (fuel + 1) [] path includeTypes context = .ok "undefined" ∧
    generateValue env (fuel + 2) (.mk re (.union [])) path includeTypes context =
      .ok (some "undefined") :=
  ⟨rfl, rfl⟩

/-- C5: when an override callback is configured, a non-null/non-undefined
result is returned verbatim (taking precedence over the static matcher table);
when the callback throws, the exception is absorbed and resolution equals the
provider-less static resolution (pattern table plus per-kind defaults), so the
fault does not propagate. -/
theorem claim_C5 (f : String → String → PResult)
    (matchers : List (String × String)) (ty path : String) :
    (∀ v, f ty path = .ok (some v) →
      getFakerGenerator (some f) matchers ty path = v) ∧
    (f ty path = .threw →
      getFakerGenerator (some f) matchers ty path =
        getFakerGenerator none matchers ty path) := by
  constructor
  · intro v hv
    simp [getFakerGenerator, hv]
  · intro hv
    simp [getFakerGenerator, hv]

/-- C5 witness: a constant override wins over an empty table; a throwing
override resolves exactly as the provider-less call. -/
theorem claim_C5_witness :
    getFakerGenerator (some (fun _ _ => .ok (some "override-expr"))) [] "string"
        "User.id" = "override-expr" ∧
    getFakerGenerator (some (fun _ _ => .threw)) [] "string" "User.id" =
      getFakerGenerator none [] "string" "User.id" :=
  ⟨(claim_C5 (fun _ _ => .ok (some "override-expr")) [] "string" "User.id").1
      "override-expr" rfl,
    (claim_C5 (fun _ _ => .threw) [] "string" "User.id").2 rfl⟩

/-- C1: at the failing input — entity `Node` with a `recursiveEdge`-flagged
plain reference to itself — `generateReferenceValue` emits a recursive factory
call with no `depth >= maxDepth` check, while the array path of the very same
edge does receive the guard (so the guard exists only for array edges). -/
theorem claim_C1 :
    generateReferenceValue true "Node" ctxC1 =
      "MockNode(\x7b\x7d, \x7b depth: depth + 1, maxDepth \x7d)" ∧
    containsSub (generateReferenceValue true "Node" ctxC1) "depth >= maxDepth" =
      false ∧
    generateArrayValue {} 100 [refNodeC1] "Node.children" false ctxC1 =
      .ok ("depth >= maxDepth ? [] : faker.helpers.multiple(() => " ++
        "MockNode(\x7b\x7d, \x7b depth: depth + 1, maxDepth \x7d))") :=
  ⟨rfl, rfl, rfl⟩

/-- C8: a non-optional function-typed property is not omitted — the emitted
property line is `"cb": undefined`, so the property name does appear in the
factory body; the optional variant faults with a `TypeError`
(`undefined.trim()`); `generateValue` itself signals the omission with
`undefined`. -/
theorem claim_C8 :
    generateProperty {} 100 funcPropC8 "cb" "T" false {} =
      .ok "\"cb\": undefined" ∧
    generateProperty {} 100 funcPropC8opt "cb" "T" false {} =
      .error .typeError ∧
    generateValue {} 100 (.mk false (.funct (.mk false (.primitive "string"))))
        "T.cb" false {} = .ok none :=
  ⟨rfl, rfl, rfl⟩

/-- C9: `stripUnusedOptionsFromText` returns unchanged every text that still
contains `__options` — its keep-guard matches the destructuring line and the
parameter it is supposed to remove — so the dead `__options` parameter and
destructuring of `bodyC9` (whose body never uses depth) survive stripping. -/
theorem claim_C9 (t : String) :
    (containsSub t "__options" = true → stripUnusedOptionsFromText t = t) ∧
    stripUnusedOptionsFromText bodyC9 = bodyC9 ∧
    containsSub bodyC9 "__options" = true := by
  refine ⟨?_, rfl, rfl⟩
  intro h
  have hg : stripGuard t = true := by
    unfold stripGuard
    rw [h]
    simp
  unfold stripUnusedOptionsFromText
  rw [hg]
  simp

/-- C9 witness: the general no-strip fact applied at the concrete body. -/
theorem claim_C9_witness :
    containsSub bodyC9 "__options" = true ∧
    stripUnusedOptionsFromText bodyC9 = bodyC9 :=
  ⟨rfl, (claim_C9 bodyC9).1 rfl⟩

/-- C4 counterexample: for the new-style table `tableC4` and path `"A.x"`,
the code resolves to `"g1"` (normalized matcher order groups the two `g1`
patterns together), while first-match in declaration order yields `"g2"`. -/
theorem claim_C4_counterexample :
    inferGeneratorFun (compiledMatchers tableC4) "A.x" = some "g1" ∧
    specDeclOrderResolve tableC4 "A.x" = some "g2" ∧
    inferGeneratorFun (compiledMatchers tableC4) "A.x" ≠
      specDeclOrderResolve tableC4 "A.x" := by
  refine ⟨rfl, rfl, ?_⟩
  have h1 : inferGeneratorFun (compiledMatchers tableC4) "A.x" = some "g1" := rfl
  have h2 : specDeclOrderResolve tableC4 "A.x" = some "g2" := rfl
  rw [h1, h2]
  decide

/-- Compilation of a new-style table always succeeds and yields the flattened
normalized matcher list. -/
theorem compiledMatchers_eq (t : List (String × String)) :
    compiledMatchers t =
      defineGeneratorMatchers (normalizeNewStyle (newStyleTable t)) := by
  cases t with
  | nil => rfl
  | cons a t' => rfl

/-- C4 amended: resolution (without an override) is first-match-wins — not
most-specific-match — over the compiled matcher list, whose order is the
normalized one: patterns grouped by expression, groups ordered by the first
declaration of their expression.  For tables in which each expression's
patterns are contiguous (such as single-expression tables) this coincides with
declaration order: `{"*.id": "uuid-expr"}` resolves `"User.id"` to
`"uuid-expr"` and `"User.identifier"` to the declared-kind default; a
less-specific pattern declared first beats a more specific later one. -/
theorem claim_C4_amended :
    (∀ (matchers : List (String × String)) (path : String),
      inferGeneratorFun matchers path = specDeclOrderResolve matchers path) ∧
    (∀ (t : List (String × String)) (path : String),
      inferGeneratorFun (compiledMatchers t) path =
        specDeclOrderResolve
          (defineGeneratorMatchers (normalizeNewStyle (newStyleTable t))) path) ∧
    inferGeneratorFun (compiledMatchers tableC4uuid) "User.id" =
      some "uuid-expr" ∧
    getFakerGenerator none (compiledMatchers tableC4uuid) "string"
      "User.identifier" = "faker.lorem.words()" ∧
    inferGeneratorFun (compiledMatchers [("*", "g-any"), ("User.id", "g-exact")])
      "User.id" = some "g-any" := by
  have base : ∀ (matchers : List (String × String)) (path : String),
      inferGeneratorFun matchers path = specDeclOrderResolve matchers path := by
    intro matchers path
    unfold inferGeneratorFun specDeclOrderResolve
    rw [head_filter_eq_find]
  refine ⟨base, fun t path => ?_, rfl, rfl, rfl⟩
  rw [base (compiledMatchers t) path, compiledMatchers_eq]

/-! ### Association-list lemmas -/

theorem alGet_cons {α : Type} (a : String × α) (t : List (String × α)) (k : String) :
    alGet (a :: t) k = if a.1 == k then some a.2 else alGet t k := by
  by_cases h : a.1 == k
  · simp [alGet, List.find?_cons_of_pos, h]
  · simp [alGet, List.find?_cons_of_neg, h]

theorem alGet_alSet_self {α : Type} (m : List (String × α)) (k : String) (v : α) :
    alGet (alSet m k v) k = some v := by
  induction m with
  | nil => simp [alSet, alGet_cons]
  | cons a t ih =>
    by_cases h : a.1 == k
    · simp [alSet, h, alGet_cons]
    · simp [alSet, h, alGet_cons, ih]

theorem alGet_alSet_other {α : Type} (m : List (String × α)) (k k' : String)
    (v : α) (h : ¬ k = k') :
    alGet (alSet m k v) k' = alGet m k' := by
  have hkk : (k == k') = false := by
    simpa using h
  induction m with
  | nil => simp [alSet, alGet_cons, hkk]
  | cons a t ih =>
    by_cases ha : a.1 == k
    · have ha' : a.1 = k := by simpa using ha
      simp [alSet, ha, alGet_cons, ha', hkk]
    · simp [alSet, ha, alGet_cons, ih]

/-! ### Claim C7: emission selection among duplicate names -/

/-- C7 counterexample: two entities that share both the name `"X"` and the
kind `instance` are *both* kept by the emission filter, contradicting
"exactly one of them is emitted". -/
theorem claim_C7_counterexample :
    (emittedEntities [xInst1C7, xInst2C7]).length = 2 :=
  rfl

theorem alGet_bestKindStep (m : List (String × EKind)) (it : Entity) (n : String) :
    alGet (bestKindStep m it) n =
      if it.name == n then kindStep (alGet m n) it.kind else alGet m n := by
  by_cases h : it.name == n
  · have hn : it.name = n := by simpa using h
    subst hn
    unfold bestKindStep kindStep
    cases hm : alGet m it.name with
    | none => simp [h, hm, alGet_alSet_self]
    | some prev =>
      by_cases hr : precedenceRank prev < precedenceRank it.kind
      · simp [h, hm, hr, alGet_alSet_self]
      · simp [h, hm, hr]
  · have hn : ¬ it.name = n := by simpa using h
    unfold bestKindStep
    cases hm : alGet m it.name with
    | none => simp [h, alGet_alSet_other m it.name n it.kind hn]
    | some prev =>
      by_cases hr : precedenceRank prev < precedenceRank it.kind <;>
        simp [h, hr, alGet_alSet_other m it.name n it.kind hn]

theorem alGet_foldl_bestKind (data : List Entity) (m : List (String × EKind))
    (n : String) :
    alGet (data.foldl bestKindStep m) n =
      ((data.filter (fun e => e.name == n)).map (fun e => e.kind)).foldl kindStep
        (alGet m n) := by
  induction data generalizing m with
  | nil => rfl
  | cons e t ih =>
    rw [List.foldl_cons, ih]
    by_cases h : e.name == n
    · rw [alGet_bestKindStep]
      simp [h, List.filter_cons]
    · rw [alGet_bestKindStep]
      simp [h, List.filter_cons]

/-- The pre-scan's entry for a name is the best-kind fold of the kinds of the
entities carrying that name, in order. -/
theorem alGet_nameToBestKind (data : List Entity) (n : String) :
    alGet (nameToBestKind data) n =
      kindFold ((data.filter (fun e => e.name == n)).map (fun e => e.kind)) := by
  unfold nameToBestKind kindFold
  rw [alGet_foldl_bestKind]
  rfl

theorem kindFold_max (a : EKind) (ks : List EKind) :
    ∃ k, ks.foldl kindStep (some a) = some k ∧ (k = a ∨ k ∈ ks) ∧
      precedenceRank a ≤ precedenceRank k ∧
      ∀ k' ∈ ks, precedenceRank k' ≤ precedenceRank k := by
  induction ks generalizing a with
  | nil => exact ⟨a, rfl, Or.inl rfl, le_refl _, by simp⟩
  | cons b t ih =>
    by_cases h : precedenceRank a < precedenceRank b
    · obtain ⟨k, hk, hmem, hle, hall⟩ := ih b
      refine ⟨k, ?_, ?_, ?_, ?_⟩
      · simpa [kindStep, List.foldl_cons, h] using hk
      · rcases hmem with rfl | hm
        · exact Or.inr (List.mem_cons_self _ _)
        · exact Or.inr (List.mem_cons_of_mem _ hm)
      · exact le_trans (le_of_lt h) hle
      · intro k' hk'
        rcases List.mem_cons.mp hk' with rfl | hm
        · exact hle
        · exact hall k' hm
    · obtain ⟨k, hk, hmem, hle, hall⟩ := ih a
      refine ⟨k, ?_, ?_, ?_, ?_⟩
      · simpa [kindStep, List.foldl_cons, h] using hk
      · rcases hmem with rfl | hm
        · exact Or.inl rfl
        · exact Or.inr (List.mem_cons_of_mem _ hm)
      · exact hle
      · intro k' hk'
        rcases List.mem_cons.mp hk' with rfl | hm
        · exact le_trans (le_of_not_lt h) hle
        · exact hall k' hm

theorem kindFold_nonempty_max (c : EKind) (rest : List EKind) :
    ∃ k, kindFold (c :: rest) = some k ∧ k ∈ c :: rest ∧
      ∀ k' ∈ c :: rest, precedenceRank k' ≤ precedenceRank k := by
  obtain ⟨k, hk, hmem, hle, hall⟩ := kindFold_max c rest
  refine ⟨k, ?_, ?_, ?_⟩
  · simpa [kindFold, List.foldl_cons, kindStep] using hk
  · rcases hmem with rfl | hm
    · exact List.mem_cons_self _ _
    · exact List.mem_cons_of_mem _ hm
  · intro k' hk'
    rcases List.mem_cons.mp hk' with rfl | hm
    · exact hle
    · exact hall k' hm

/-- In a list of entities with pairwise distinct kinds, filtering for a kind
that occurs yields exactly one entity. -/
theorem filter_kind_singleton (l : List Entity) (k : EKind)
    (hd : l.Pairwise (fun a b => a.kind ≠ b.kind))
    (hmem : ∃ e ∈ l, e.kind = k) :
    ∃ e, l.filter (fun e => e.kind == k) = [e] ∧ e.kind = k := by
  induction l with
  | nil => simp at hmem
  | cons a t ih =>
    rw [List.pairwise_cons] at hd
    by_cases h : a.kind == k
    · have ha : a.kind = k := by simpa using h
      have ht : t.filter (fun e => e.kind == k) = [] := by
        rw [List.filter_eq_nil_iff]
        intro b hb
        have hne := hd.1 b hb
        rw [ha] at hne
        intro hbk
        have hbk' : b.kind = k := by simpa using hbk
        exact hne hbk'.symm
      exact ⟨a, by simp [List.filter_cons, h, ht], ha⟩
    · obtain ⟨e, he, hek⟩ := hmem
      rcases List.mem_cons.mp he with rfl | hm
      · exact absurd hek (by simpa using h)
      · obtain ⟨e', h1, h2⟩ := ih hd.2 ⟨e, hm, hek⟩
        exact ⟨e', by simp [List.filter_cons, h, h1], h2⟩

/-- C7 amended: exactly one *kind* wins per duplicated name — the
first-encountered kind of maximal precedence rank — and an entity is emitted
iff its kind is the winner.  Hence when the duplicates all have pairwise
distinct kinds, exactly one entity with that name is emitted and its rank is
maximal (so an `instance`/`constant` pair named `"X"` emits only the
`instance`); duplicates sharing the winning kind are all emitted (see the
counterexample). -/
theorem claim_C7_amended (data : List Entity) (n : String)
    (hne : 0 < (data.filter (fun e => e.name == n)).length)
    (hdist : (data.filter (fun e => e.name == n)).Pairwise
      (fun a b => a.kind ≠ b.kind)) :
    (∃ e, (emittedEntities data).filter (fun x => x.name == n) = [e] ∧
      e.name = n ∧
      ∀ e' ∈ data.filter (fun x => x.name == n),
        precedenceRank e'.kind ≤ precedenceRank e.kind) ∧
    emittedEntities [xInst1C7, xConstC7] = [xInst1C7] := by
  refine ⟨?_, rfl⟩
  obtain ⟨c, rest, hk⟩ : ∃ c rest,
      (data.filter (fun e => e.name == n)).map (fun e => e.kind) = c :: rest := by
    cases hcase : data.filter (fun e => e.name == n) with
    | nil => rw [hcase] at hne; simp at hne
    | cons x xs => exact ⟨x.kind, xs.map (fun e => e.kind), by simp⟩
  obtain ⟨k, hfold, hkmem, hkmax⟩ := kindFold_nonempty_max c rest
  rw [← hk] at hfold hkmem hkmax
  have hbest : alGet (nameToBestKind data) n = some k := by
    rw [alGet_nameToBestKind, hfold]
  have hcomm : (emittedEntities data).filter (fun x => x.name == n) =
      (data.filter (fun e => e.name == n)).filter
        (fun e => alGet (nameToBestKind data) e.name == some e.kind) := by
    unfold emittedEntities
    rw [List.filter_filter, List.filter_filter]
    apply List.filter_congr
    intro x _
    exact Bool.and_comm _ _
  have hpred : (data.filter (fun e => e.name == n)).filter
        (fun e => alGet (nameToBestKind data) e.name == some e.kind) =
      (data.filter (fun e => e.name == n)).filter (fun e => e.kind == k) := by
    apply List.filter_congr
    intro e he
    have hen : e.name = n := by
      have := (List.mem_filter.mp he).2
      simpa using this
    rw [hen, hbest]
    show (some k == some e.kind) = (e.kind == k)
    rw [Bool.eq_iff_iff]
    simp only [beq_iff_eq, Option.some.injEq]
    exact eq_comm
  have hex : ∃ e ∈ data.filter (fun e => e.name == n), e.kind = k := by
    obtain ⟨e, hem, hek⟩ := List.mem_map.mp hkmem
    exact ⟨e, hem, hek⟩
  obtain ⟨e, hsing, hek⟩ :=
    filter_kind_singleton (data.filter (fun e => e.name == n)) k hdist hex
  refine ⟨e, ?_, ?_, ?_⟩
  · rw [hcomm, hpred, hsing]
  · have hmem : e ∈ data.filter (fun e => e.name == n) := by
      have : e ∈ (data.filter (fun e => e.name == n)).filter
          (fun x => x.kind == k) := by
        rw [hsing]; exact List.mem_singleton.mpr rfl
      exact (List.mem_filter.mp this).1
    have := (List.mem_filter.mp hmem).2
    simpa using this
  · intro e' he'
    have hmm : e'.kind ∈ (data.filter (fun e => e.name == n)).map
        (fun e => e.kind) := List.mem_map_of_mem _ he'
    have := hkmax _ hmm
    rw [hek]
    exact this

/-- C7 witness: the instance/constant pair named `"X"`. -/
theorem claim_C7_amended_witness :
    ∃ e, (emittedEntities [xInst1C7, xConstC7]).filter
        (fun x => x.name == "X") = [e] ∧
      e.name = "X" ∧
      ∀ e' ∈ [xInst1C7, xConstC7].filter (fun x => x.name == "X"),
        precedenceRank e'.kind ≤ precedenceRank e.kind :=
  (claim_C7_amended [xInst1C7, xConstC7] "X" (by decide)
    (by
      show List.Pairwise (fun a b => a.kind ≠ b.kind)
        ([xInst1C7, xConstC7].filter (fun e => e.name == "X"))
      have hfe : [xInst1C7, xConstC7].filter (fun e => e.name == "X") =
          [xInst1C7, xConstC7] := rfl
      rw [hfe]
      refine List.Pairwise.cons ?_ (List.pairwise_singleton _ _)
      intro b hb
      rw [List.mem_singleton.mp hb]
      decide)).1

/-! ### Claim C6: transitive inherited-property collection -/

/-- `pushProps` preserves distinctness of the collected property names. -/
theorem pushProps_nodup (ps : List AProp) (out : List AProp)
    (h : (out.map AProp.name).Nodup) :
    ((pushProps out ps).map AProp.name).Nodup := by
  induction ps generalizing out with
  | nil => simpa [pushProps] using h
  | cons p t ih =>
    show ((pushProps (if out.any (fun op => op.name == p.name) then out
      else out ++ [p]) t).map AProp.name).Nodup
    apply ih
    by_cases ha : out.any (fun op => op.name == p.name)
    · simpa [ha] using h
    · rw [if_neg ha, List.map_append]
      have hnot : p.name ∉ out.map AProp.name := by
        intro hmem
        obtain ⟨op, hop, hopn⟩ := List.mem_map.mp hmem
        exact ha (List.any_eq_true.mpr ⟨op, hop, by simp [hopn]⟩)
      simp [List.nodup_append, h, hnot]

/-- The cycle-safe walk preserves distinctness of collected names, for any
fuel, seen-set and accumulator. -/
theorem walk_nodup (allE : List Entity) (fileMap : List (String × Entity)) :
    ∀ fuel : Nat,
      (∀ (seen : List String) (out : List AProp) (expr : String)
        (loc : Option String), (out.map AProp.name).Nodup →
        (((walkProps allE fileMap fuel seen out expr loc).2).map AProp.name).Nodup) ∧
      (∀ (seen : List String) (out : List AProp) (bs : List Inh),
        (out.map AProp.name).Nodup →
        (((walkBases allE fileMap fuel seen out bs).2).map AProp.name).Nodup) := by
  intro fuel
  induction fuel with
  | zero => exact ⟨fun _ _ _ _ h => h, fun _ _ _ h => h⟩
  | succ f ih =>
    constructor
    · intro seen out expr loc h
      simp only [walkProps]
      split
      · exact h
      · split
        · exact h
        · cases resolveBaseEntity allE fileMap expr loc with
          | none => exact h
          | some ent => exact ih.2 _ _ _ (pushProps_nodup _ _ h)
    · intro seen out bs h
      cases bs with
      | nil => exact h
      | cons b t =>
        simp only [walkBases]
        exact ih.2 _ _ _ (ih.1 _ _ _ _ h)

/-- C6: transitive inherited-property collection always yields a list whose
property names are pairwise distinct; over the cyclic base graph
`X extends Y extends X` it terminates with the finite list `[x1, y1]`; for the
diamond `D extends B,C`, `B,C extend A`, `A`'s fields appear exactly once and
the `shared` field kept is the most-derived (`D`'s string-kinded) one. -/
theorem claim_C6 :
    (∀ (allEntities : List Entity) (fileMap : List (String × Entity))
      (startExpr : String) (startLoc : Option String),
      ((collectPropsTransitive allEntities fileMap startExpr startLoc).map
        AProp.name).Nodup) ∧
    (collectPropsTransitive entitiesC6cyc [] "X" none).map AProp.name =
      ["x1", "y1"] ∧
    collectPropsTransitive entitiesC6 [] "D" none =
      [strProp "d1", kindProp "shared" "string", strProp "b1", strProp "a1",
        strProp "c1"] ∧
    ((collectPropsTransitive entitiesC6 [] "D" none).map AProp.name).count "a1" =
      1 ∧
    ((collectPropsTransitive entitiesC6 [] "D" none).map AProp.name).count
      "shared" = 1 := by
  refine ⟨?_, rfl, rfl, rfl, rfl⟩
  intro allEntities fileMap startExpr startLoc
  unfold collectPropsTransitive
  exact (walk_nodup allEntities fileMap _).1 [] [] startExpr startLoc (by simp)

/-! ### Claim C2: lemmas about reference collection -/

theorem lsAdd_mem_of_mem (s : List String) (x a : String) (h : a ∈ s) :
    a ∈ lsAdd s x := by
  unfold lsAdd
  split
  · exact h
  · exact List.mem_append_left _ h

theorem lsAdd_self_mem (s : List String) (x : String) : x ∈ lsAdd s x := by
  unfold lsAdd
  split
  · next h => simpa using h
  · exact List.mem_append_right _ (List.mem_singleton.mpr rfl)

mutual

theorem collectRefs_mono (pv : PV) (acc : List String) (a : String)
    (h : a ∈ acc) : a ∈ collectRefsFromProp pv acc :=
  match pv with
  | .mk _ core =>
    match core with
    | .reference v _ => by
      show a ∈ (if v != "" && v != "__type" then
        lsAdd acc (extractTypeNameFromImportish v) else acc)
      split
      · exact lsAdd_mem_of_mem _ _ _ h
      · exact h
    | .union vs => collectRefsList_mono vs acc a h
    | .intersection vs => collectRefsList_mono vs acc a h
    | .array vs => collectRefsList_mono vs acc a h
    | .tuple vs => collectRefsList_mono vs acc a h
    | .record vs => collectRefsList_mono vs acc a h
    | .promise vs => collectRefsList_mono vs acc a h
    | .object ps => collectRefsProps_mono ps acc a h
    | .typeOperator _ v => collectRefs_mono v acc a h
    | .mapped _ _ v => collectRefs_mono v acc a h
    | .conditional _ _ t _ => collectRefs_mono t acc a h
    | .primitive _ => h
    | .constant _ => h
    | .indexSignature _ _ => h
    | .funct _ => h
    | .enumv _ => h

theorem collectRefsList_mono (vs : List PV) (acc : List String) (a : String)
    (h : a ∈ acc) : a ∈ collectRefsList vs acc :=
  match vs with
  | [] => h
  | v :: t => collectRefsList_mono t _ a (collectRefs_mono v acc a h)

theorem collectRefsProps_mono (ps : List AProp) (acc : List String) (a : String)
    (h : a ∈ acc) : a ∈ collectRefsProps ps acc :=
  match ps with
  | [] => h
  | .mk _ _ pv :: t => collectRefsProps_mono t _ a (collectRefs_mono pv acc a h)

end

theorem collectRefsList_mem (owner : String) (vs : List PV) (v : PV)
    (hv : v ∈ vs)
    (hall : ∀ acc, owner ∈ collectRefsFromProp v acc) :
    ∀ acc, owner ∈ collectRefsList vs acc := by
  induction vs with
  | nil => cases hv
  | cons x t ih =>
    intro acc
    rcases List.mem_cons.mp hv with rfl | hm
    · show owner ∈ collectRefsList t (collectRefsFromProp v acc)
      exact collectRefsList_mono t _ _ (hall acc)
    · show owner ∈ collectRefsList t (collectRefsFromProp x acc)
      exact ih hm _

theorem collectRefsProps_mem (owner : String) (ps : List AProp) (p : AProp)
    (hp : p ∈ ps)
    (hall : ∀ acc, owner ∈ collectRefsFromProp p.pv acc) :
    ∀ acc, owner ∈ collectRefsProps ps acc := by
  induction ps with
  | nil => cases hp
  | cons x t ih =>
    intro acc
    cases x with
    | mk nm opt xpv =>
      rcases List.mem_cons.mp hp with rfl | hm
      · show owner ∈ collectRefsProps t (collectRefsFromProp xpv acc)
        exact collectRefsProps_mono t _ _ (hall acc)
      · show owner ∈ collectRefsProps t (collectRefsFromProp xpv acc)
        exact ih hm _

/-- Any witnessed direct self-reference is collected by `collectRefsFromProp`,
whatever the accumulator. -/
theorem collectRefs_hasSelfRef (owner : String) (pv : PV)
    (h : HasDirectSelfRef owner pv) :
    ∀ acc, owner ∈ collectRefsFromProp pv acc := by
  induction h with
  | ref re v loc h1 h2 h3 =>
    intro acc
    have hcond : (v != "" && v != "__type") = true := by
      simp [h1, h2]
    show owner ∈ (if v != "" && v != "__type" then
      lsAdd acc (extractTypeNameFromImportish v) else acc)
    rw [if_pos hcond, h3]
    exact lsAdd_self_mem acc owner
  | union_mem re vs v hv hder ih =>
    exact fun acc => collectRefsList_mem owner vs v hv ih acc
  | intersection_mem re vs v hv hder ih =>
    exact fun acc => collectRefsList_mem owner vs v hv ih acc
  | tuple_mem re vs v hv hder ih =>
    exact fun acc => collectRefsList_mem owner vs v hv ih acc
  | record_mem re vs v hv hder ih =>
    exact fun acc => collectRefsList_mem owner vs v hv ih acc
  | promise_mem re vs v hv hder ih =>
    exact fun acc => collectRefsList_mem owner vs v hv ih acc
  | array_head re v rest hder ih =>
    intro acc
    show owner ∈ collectRefsList (v :: rest) acc
    exact collectRefsList_mono rest _ _ (ih acc)
  | object_mem re ps p hp hder ih =>
    exact fun acc => collectRefsProps_mem owner ps p hp ih acc
  | typeOperator_val re op v hder ih => exact fun acc => ih acc
  | mapped_val re param constr v hder ih => exact fun acc => ih acc
  | conditional_true re c ext t f hder ih => exact fun acc => ih acc

/-! ### Claim C2: adjacency-map lemmas -/

theorem alGet_append_some {α : Type} (m l : List (String × α)) (k : String)
    (v : α) (h : alGet m k = some v) : alGet (m ++ l) k = some v := by
  induction m with
  | nil => simp [alGet] at h
  | cons a t ih =>
    rw [alGet_cons] at h
    rw [List.cons_append, alGet_cons]
    by_cases hk : a.1 == k
    · rw [if_pos hk] at h ⊢; exact h
    · rw [if_neg hk] at h ⊢; exact ih h

theorem ensureKey_adjGet_mono (adj : Adj) (k' k a : String)
    (h : a ∈ adjGet adj k) : a ∈ adjGet (ensureKey adj k') k := by
  unfold ensureKey
  split
  · exact h
  · unfold adjGet at h ⊢
    cases hm : alGet adj k with
    | none => rw [hm] at h; simp at h
    | some v =>
      rw [hm] at h
      rw [alGet_append_some adj _ k v hm]
      exact h

theorem addEdge_adjGet_mono (adj : Adj) (fr tgt k a : String)
    (h : a ∈ adjGet adj k) : a ∈ adjGet (addEdge adj fr tgt) k := by
  have h' := ensureKey_adjGet_mono adj fr k a h
  show a ∈ adjGet (alSet (ensureKey adj fr) fr
    (lsAdd (adjGet (ensureKey adj fr) fr) tgt)) k
  by_cases hk : fr = k
  · subst hk
    unfold adjGet
    rw [alGet_alSet_self]
    simp only [Option.getD_some]
    exact lsAdd_mem_of_mem _ _ _ h'
  · unfold adjGet
    rw [alGet_alSet_other _ _ _ _ hk]
    exact h'

theorem foldl_adjGet_mono {β : Type} (f : Adj → β → Adj) (l : List β)
    (k a : String) (hf : ∀ adj b, a ∈ adjGet adj k → a ∈ adjGet (f adj b) k) :
    ∀ adj, a ∈ adjGet adj k → a ∈ adjGet (l.foldl f adj) k := by
  induction l with
  | nil => exact fun adj h => h
  | cons b t ih => exact fun adj h => ih _ (hf adj b h)

theorem instPropsStep_mono (fr : String) (props : List AProp) (k a : String) :
    ∀ adj, a ∈ adjGet adj k → a ∈ adjGet (instPropsStep fr adj props) k := by
  induction props with
  | nil => exact fun adj h => h
  | cons p t ih =>
    intro adj h
    show a ∈ adjGet (instPropsStep fr
      (alSet adj fr (collectRefsFromProp p.pv (adjGet adj fr))) t) k
    apply ih
    by_cases hk : fr = k
    · subst hk
      unfold adjGet
      rw [alGet_alSet_self]
      simp only [Option.getD_some]
      exact collectRefs_mono _ _ _ h
    · unfold adjGet
      rw [alGet_alSet_other _ _ _ _ hk]
      exact h

theorem instPropsStep_mem (fr : String) (props : List AProp) (p : AProp)
    (hp : p ∈ props) (owner : String)
    (hall : ∀ acc, owner ∈ collectRefsFromProp p.pv acc) :
    ∀ adj, owner ∈ adjGet (instPropsStep fr adj props) fr := by
  induction props with
  | nil => cases hp
  | cons x t ih =>
    intro adj
    rcases List.mem_cons.mp hp with rfl | hm
    · show owner ∈ adjGet (instPropsStep fr
        (alSet adj fr (collectRefsFromProp p.pv (adjGet adj fr))) t) fr
      apply instPropsStep_mono
      unfold adjGet
      rw [alGet_alSet_self]
      simp only [Option.getD_some]
      exact hall _
    · exact ih hm _

theorem buildAdjacencyStep_mono (e : Entity) (k a : String) :
    ∀ adj, a ∈ adjGet adj k → a ∈ adjGet (buildAdjacencyStep adj e) k := by
  intro adj h
  have h1 := ensureKey_adjGet_mono adj e.name k a h
  unfold buildAdjacencyStep
  split
  · apply foldl_adjGet_mono _ _ _ _
      (fun adj b hb => addEdge_adjGet_mono adj e.name _ k a hb)
    exact instPropsStep_mono _ _ _ _ _ h1
  · apply foldl_adjGet_mono _ _ _ _
      (fun adj v hb => foldl_adjGet_mono _ _ _ _
        (fun adj r hr => addEdge_adjGet_mono adj e.name r k a hr) adj hb)
    exact h1
  · apply foldl_adjGet_mono _ _ _ _
      (fun adj ent hb => addEdge_adjGet_mono adj e.name _ k a hb)
    exact h1
  · apply foldl_adjGet_mono _ _ _ _
      (fun adj r hr => addEdge_adjGet_mono adj e.name r k a hr)
    exact h1
  · exact h1

/-- An instance entity with a witnessed direct self-reference yields a
self-edge in the adjacency map built over any entity list containing it. -/
theorem buildAdjacency_self_edge (entities : List Entity) (E : Entity)
    (hE : E ∈ entities) (hkind : E.kind = .instanceK) (p : AProp)
    (hp : p ∈ E.properties) (href : HasDirectSelfRef E.name p.pv) :
    E.name ∈ adjGet (buildAdjacency entities) E.name := by
  obtain ⟨l1, l2, rfl⟩ := List.append_of_mem hE
  unfold buildAdjacency
  rw [List.foldl_append, List.foldl_cons]
  apply foldl_adjGet_mono _ _ _ _
    (fun adj e hb => buildAdjacencyStep_mono e _ _ adj hb)
  unfold buildAdjacencyStep
  rw [hkind]
  apply foldl_adjGet_mono _ _ _ _
    (fun adj b hb => addEdge_adjGet_mono adj E.name _ E.name E.name hb)
  exact instPropsStep_mem E.name E.properties p hp E.name
    (collectRefs_hasSelfRef E.name p.pv href) _

/-! ### Claim C2: `nodeToScc` and `canLead` lemmas -/

theorem foldl_lsAdd_mono (t : List String) (s : List String) (a : String)
    (h : a ∈ s) : a ∈ t.foldl lsAdd s := by
  induction t generalizing s with
  | nil => exact h
  | cons c r ih => exact ih _ (lsAdd_mem_of_mem _ _ _ h)

theorem lsAdd_fold_mem (comp : List String) (x : String) (hx : x ∈ comp) :
    ∀ init, x ∈ comp.foldl lsAdd init := by
  induction comp with
  | nil => cases hx
  | cons c t ih =>
    intro init
    rcases List.mem_cons.mp hx with rfl | hm
    · exact foldl_lsAdd_mono t _ _ (lsAdd_self_mem init x)
    · exact ih hm _

theorem setAll_inv (compSet : List String) (comp : List String)
    (hsub : ∀ n ∈ comp, n ∈ compSet) :
    ∀ m : List (String × List String),
      (∀ n s, alGet m n = some s → n ∈ s) →
      ∀ n s, alGet (comp.foldl (fun m n => alSet m n compSet) m) n = some s →
        n ∈ s := by
  induction comp with
  | nil => exact fun m hm => hm
  | cons c t ih =>
    intro m hm
    apply ih (fun n hn => hsub n (List.mem_cons_of_mem _ hn))
    intro n s hget
    by_cases hnc : c = n
    · subst hnc
      rw [alGet_alSet_self] at hget
      cases hget
      exact hsub c (List.mem_cons_self _ _)
    · rw [alGet_alSet_other _ _ _ _ hnc] at hget
      exact hm n s hget

/-- Every entry of the glue map `nodeToScc` contains its own key. -/
theorem buildNodeToScc_mem (sccs : List (List String)) (n : String)
    (s : List String) (h : alGet (buildNodeToScc sccs) n = some s) : n ∈ s := by
  suffices hgen : ∀ m : List (String × List String),
      (∀ n s, alGet m n = some s → n ∈ s) →
      ∀ n s, alGet (sccs.foldl (fun m comp =>
        comp.foldl (fun m n => alSet m n (comp.foldl lsAdd [])) m) m) n = some s →
        n ∈ s by
    refine hgen [] ?_ n s h
    intro n s hh
    simp [alGet] at hh
  clear h n s
  induction sccs with
  | nil => exact fun m hm => hm
  | cons comp t ih =>
    intro m hm
    exact ih _ (setAll_inv (comp.foldl lsAdd []) comp
      (fun n hn => lsAdd_fold_mem comp n hn []) m hm)

theorem canLead_true_of_selfEdge (adj : Adj)
    (nodeToScc : List (String × List String)) (reach : String → List String)
    (nm : String) (hself : nm ∈ adjGet adj nm)
    (hscc : ∀ s, alGet nodeToScc nm = some s → nm ∈ s) :
    ((adjGet adj nm).contains nm) = true ∧
    canLeadToRecursionFrom
      (decide (1 < ((alGet nodeToScc nm).getD []).length) ||
        (adjGet adj nm).contains nm)
      (if ((alGet nodeToScc nm).getD []).length != 0 then
        (alGet nodeToScc nm).getD [] else [nm])
      reach nm = true := by
  have hcont : ((adjGet adj nm).contains nm) = true := by
    simpa using hself
  refine ⟨hcont, ?_⟩
  unfold canLeadToRecursionFrom
  cases halg : alGet nodeToScc nm with
  | none =>
    simp [halg, hcont]
    exact hself
  | some s =>
    have hnm := hscc s halg
    have hlen : s ≠ [] := List.ne_nil_of_mem hnm
    simp [halg, hcont, hlen, List.length_eq_zero, hnm]
    exact Or.inr hself

/-! ### Claim C2: the annotator flags every visited self-reference -/

/-- Forcing the node-level flag cannot unflag anything below. -/
theorem selfRefsFlagged_setReTrue (owner : String) (nv : PV)
    (h : selfRefsFlagged owner nv = true) :
    selfRefsFlagged owner nv.setReTrue = true := by
  cases nv with
  | mk re core =>
    cases core with
    | reference v loc =>
      show (if extractTypeNameFromImportish v == owner then true else true) = true
      split <;> rfl
    | union vs => exact h
    | intersection vs => exact h
    | array vs => exact h
    | tuple vs => exact h
    | object ps => exact h
    | record vs => exact h
    | promise vs => exact h
    | typeOperator op v => exact h
    | mapped param c v => exact h
    | conditional c ext t f => exact h
    | primitive v => exact h
    | constant v => exact h
    | indexSignature kt vt => exact h
    | funct ret => exact h
    | enumv vs => exact h

mutual

theorem annotatePV_flags (canLead : String → Bool) (owner : String)
    (hc : canLead owner = true) (pv : PV) :
    ∀ res l, annotatePropValue canLead pv = .ok (res, l) →
      selfRefsFlagged owner res = true :=
  match pv with
  | .mk re core =>
    match core with
    | .reference v loc => by
      intro res l h
      simp only [annotatePropValue, Except.ok.injEq, Prod.mk.injEq] at h
      obtain ⟨rfl, rfl⟩ := h
      show (if extractTypeNameFromImportish v == owner then
        (if canLead (extractTypeNameFromImportish v) = true then true else re)
        else true) = true
      by_cases ho : extractTypeNameFromImportish v == owner
      · have ho' : extractTypeNameFromImportish v = owner := by simpa using ho
        rw [if_pos ho, ho', hc]
        simp
      · rw [if_neg ho]
    | .union vs => by
      intro res l h
      simp only [annotatePropValue] at h
      cases hv : annotateValues canLead vs with
      | error e => rw [hv] at h; simp at h
      | ok q =>
        obtain ⟨nvs, l2⟩ := q
        rw [hv] at h
        simp only [Except.ok.injEq, Prod.mk.injEq] at h
        obtain ⟨rfl, rfl⟩ := h
        exact annotateValues_flags canLead owner hc vs nvs l2 hv
    | .intersection vs => by
      intro res l h
      simp only [annotatePropValue] at h
      cases hv : annotateValues canLead vs with
      | error e => rw [hv] at h; simp at h
      | ok q =>
        obtain ⟨nvs, l2⟩ := q
        rw [hv] at h
        simp only [Except.ok.injEq, Prod.mk.injEq] at h
        obtain ⟨rfl, rfl⟩ := h
        exact annotateValues_flags canLead owner hc vs nvs l2 hv
    | .record vs => by
      intro res l h
      simp only [annotatePropValue] at h
      cases hv : annotateValues canLead vs with
      | error e => rw [hv] at h; simp at h
      | ok q =>
        obtain ⟨nvs, l2⟩ := q
        rw [hv] at h
        simp only [Except.ok.injEq, Prod.mk.injEq] at h
        obtain ⟨rfl, rfl⟩ := h
        exact annotateValues_flags canLead owner hc vs nvs l2 hv
    | .promise vs => by
      intro res l h
      simp only [annotatePropValue] at h
      cases hv : annotateValues canLead vs with
      | error e => rw [hv] at h; simp at h
      | ok q =>
        obtain ⟨nvs, l2⟩ := q
        rw [hv] at h
        simp only [Except.ok.injEq, Prod.mk.injEq] at h
        obtain ⟨rfl, rfl⟩ := h
        exact annotateValues_flags canLead owner hc vs nvs l2 hv
    | .tuple vs => by
      intro res l h
      simp only [annotatePropValue] at h
      cases hv : annotateValues canLead vs with
      | error e => rw [hv] at h; simp at h
      | ok q =>
        obtain ⟨nvs, l2⟩ := q
        rw [hv] at h
        simp only [Except.ok.injEq, Prod.mk.injEq] at h
        obtain ⟨rfl, rfl⟩ := h
        exact annotateValues_flags canLead owner hc vs nvs l2 hv
    | .array vs => by
      cases vs with
      | nil =>
        intro res l h
        simp [annotatePropValue] at h
      | cons x rest =>
        intro res l h
        simp only [annotatePropValue] at h
        cases hv : annotatePropValue canLead x with
        | error e => rw [hv] at h; simp at h
        | ok q =>
          obtain ⟨inner, l2⟩ := q
          rw [hv] at h
          simp only [Except.ok.injEq, Prod.mk.injEq] at h
          obtain ⟨rfl, rfl⟩ := h
          show (selfRefsFlagged owner inner && true) = true
          simp [annotatePV_flags canLead owner hc x inner l2 hv]
    | .object ps => by
      intro res l h
      simp only [annotatePropValue] at h
      cases hv : annotateProps canLead ps with
      | error e => rw [hv] at h; simp at h
      | ok q =>
        obtain ⟨nps, l2⟩ := q
        rw [hv] at h
        simp only [Except.ok.injEq, Prod.mk.injEq] at h
        obtain ⟨rfl, rfl⟩ := h
        exact annotateProps_flags canLead owner hc ps nps l2 hv
    | .typeOperator op v => by
      intro res l h
      simp only [annotatePropValue] at h
      cases hv : annotatePropValue canLead v with
      | error e => rw [hv] at h; simp at h
      | ok q =>
        obtain ⟨nv, l2⟩ := q
        rw [hv] at h
        simp only [Except.ok.injEq, Prod.mk.injEq] at h
        obtain ⟨rfl, rfl⟩ := h
        exact annotatePV_flags canLead owner hc v nv l2 hv
    | .mapped param constr v => by
      intro res l h
      simp only [annotatePropValue] at h
      cases hv : annotatePropValue canLead v with
      | error e => rw [hv] at h; simp at h
      | ok q =>
        obtain ⟨nv, l2⟩ := q
        rw [hv] at h
        simp only [Except.ok.injEq, Prod.mk.injEq] at h
        obtain ⟨rfl, rfl⟩ := h
        exact annotatePV_flags canLead owner hc v nv l2 hv
    | .conditional c ext t f => by
      intro res l h
      simp only [annotatePropValue] at h
      cases h1 : annotatePropValue canLead c with
      | error e => rw [h1] at h; simp at h
      | ok q1 =>
        obtain ⟨t1, l1⟩ := q1
        rw [h1] at h
        cases h2 : annotatePropValue canLead ext with
        | error e => rw [h2] at h; simp at h
        | ok q2 =>
          obtain ⟨t2, l2⟩ := q2
          rw [h2] at h
          cases h3 : annotatePropValue canLead t with
          | error e => rw [h3] at h; simp at h
          | ok q3 =>
            obtain ⟨t3, l3⟩ := q3
            rw [h3] at h
            cases h4 : annotatePropValue canLead f with
            | error e => rw [h4] at h; simp at h
            | ok q4 =>
              obtain ⟨t4, l4⟩ := q4
              rw [h4] at h
              simp only [Except.ok.injEq, Prod.mk.injEq] at h
              obtain ⟨rfl, rfl⟩ := h
              show (selfRefsFlagged owner t1 && selfRefsFlagged owner t2 &&
                selfRefsFlagged owner t3 && selfRefsFlagged owner t4) = true
              simp [annotatePV_flags canLead owner hc c t1 l1 h1,
                annotatePV_flags canLead owner hc ext t2 l2 h2,
                annotatePV_flags canLead owner hc t t3 l3 h3,
                annotatePV_flags canLead owner hc f t4 l4 h4]
    | .primitive v => by
      intro res l h
      simp only [annotatePropValue, Except.ok.injEq, Prod.mk.injEq] at h
      obtain ⟨rfl, rfl⟩ := h
      rfl
    | .constant v => by
      intro res l h
      simp only [annotatePropValue, Except.ok.injEq, Prod.mk.injEq] at h
      obtain ⟨rfl, rfl⟩ := h
      rfl
    | .indexSignature kt vt => by
      intro res l h
      simp only [annotatePropValue, Except.ok.injEq, Prod.mk.injEq] at h
      obtain ⟨rfl, rfl⟩ := h
      rfl
    | .funct ret => by
      intro res l h
      simp only [annotatePropValue, Except.ok.injEq, Prod.mk.injEq] at h
      obtain ⟨rfl, rfl⟩ := h
      rfl
    | .enumv vs => by
      intro res l h
      simp only [annotatePropValue, Except.ok.injEq, Prod.mk.injEq] at h
      obtain ⟨rfl, rfl⟩ := h
      rfl

theorem annotateValues_flags (canLead : String → Bool) (owner : String)
    (hc : canLead owner = true) (vs : List PV) :
    ∀ nvs l, annotateValues canLead vs = .ok (nvs, l) →
      selfRefsFlaggedList owner nvs = true :=
  match vs with
  | [] => by
    intro nvs l h
    simp only [annotateValues, Except.ok.injEq, Prod.mk.injEq] at h
    obtain ⟨rfl, rfl⟩ := h
    rfl
  | v :: t => by
    intro nvs l h
    simp only [annotateValues] at h
    cases hv : annotatePropValue canLead v with
    | error e => rw [hv] at h; simp at h
    | ok q =>
      obtain ⟨nv, l1⟩ := q
      rw [hv] at h
      cases ht : annotateValues canLead t with
      | error e => rw [ht] at h; simp at h
      | ok q2 =>
        obtain ⟨nvs2, l2⟩ := q2
        rw [ht] at h
        simp only [Except.ok.injEq, Prod.mk.injEq] at h
        obtain ⟨rfl, rfl⟩ := h
        show (selfRefsFlagged owner nv && selfRefsFlaggedList owner nvs2) = true
        simp [annotatePV_flags canLead owner hc v nv l1 hv,
          annotateValues_flags canLead owner hc t nvs2 l2 ht]

theorem annotateProperty_flags (canLead : String → Bool) (owner : String)
    (hc : canLead owner = true) (p : AProp) :
    ∀ np l, annotateProperty canLead p = .ok (np, l) →
      selfRefsFlagged owner np.pv = true :=
  match p with
  | .mk nm opt pv => by
    intro np l h
    simp only [annotateProperty] at h
    cases hv : annotatePropValue canLead pv with
    | error e => rw [hv] at h; simp at h
    | ok q =>
      obtain ⟨nv, leads⟩ := q
      rw [hv] at h
      simp only [Except.ok.injEq, Prod.mk.injEq] at h
      obtain ⟨rfl, rfl⟩ := h
      have hbase := annotatePV_flags canLead owner hc pv nv leads hv
      show selfRefsFlagged owner
        (AProp.pv (.mk nm opt (if leads = true then nv.setReTrue else nv))) = true
      by_cases hl : leads = true
      · simp only [AProp.pv, hl, if_pos]
        exact selfRefsFlagged_setReTrue owner nv hbase
      · simp only [AProp.pv, hl, if_neg]
        exact hbase

theorem annotateProps_flags (canLead : String → Bool) (owner : String)
    (hc : canLead owner = true) (ps : List AProp) :
    ∀ nps l, annotateProps canLead ps = .ok (nps, l) →
      selfRefsFlaggedProps owner nps = true :=
  match ps with
  | [] => by
    intro nps l h
    simp only [annotateProps, Except.ok.injEq, Prod.mk.injEq] at h
    obtain ⟨rfl, rfl⟩ := h
    rfl
  | p :: t => by
    intro nps l h
    simp only [annotateProps] at h
    cases hp : annotateProperty canLead p with
    | error e => rw [hp] at h; simp at h
    | ok q =>
      obtain ⟨np, l1⟩ := q
      rw [hp] at h
      cases ht : annotateProps canLead t with
      | error e => rw [ht] at h; simp at h
      | ok q2 =>
        obtain ⟨nps2, l2⟩ := q2
        rw [ht] at h
        simp only [Except.ok.injEq, Prod.mk.injEq] at h
        obtain ⟨rfl, rfl⟩ := h
        cases np with
        | mk nnm nopt npv =>
          show (selfRefsFlagged owner npv && selfRefsFlaggedProps owner nps2) = true
          have h1 := annotateProperty_flags canLead owner hc p _ l1 hp
          simp only [AProp.pv] at h1
          simp [h1, annotateProps_flags canLead owner hc t nps2 l2 ht]

end

/-! ### Claim C2: recursion is reported upward to the property -/

theorem annotateValues_mem_leads (canLead : String → Bool) (vs : (List PV))
    (v : PV) (hv : v ∈ vs)
    (hall : ∀ res l, annotatePropValue canLead v = .ok (res, l) → l = true) :
    ∀ nvs L, annotateValues canLead vs = .ok (nvs, L) → L = true := by
  induction vs with
  | nil => cases hv
  | cons x t ih =>
    intro nvs L h
    simp only [annotateValues] at h
    cases hx : annotatePropValue canLead x with
    | error e => rw [hx] at h; simp at h
    | ok q =>
      obtain ⟨nv, l1⟩ := q
      rw [hx] at h
      cases ht : annotateValues canLead t with
      | error e => rw [ht] at h; simp at h
      | ok q2 =>
        obtain ⟨nvs2, l2⟩ := q2
        rw [ht] at h
        simp only [Except.ok.injEq, Prod.mk.injEq] at h
        obtain ⟨-, rfl⟩ := h
        rcases List.mem_cons.mp hv with rfl | hm
        · simp [hall nv l1 hx]
        · simp [ih hm nvs2 l2 ht]

theorem annotateProps_mem_leads (canLead : String → Bool) (ps : List AProp)
    (p : AProp) (hp : p ∈ ps)
    (hall : ∀ res l, annotatePropValue canLead p.pv = .ok (res, l) → l = true) :
    ∀ nps L, annotateProps canLead ps = .ok (nps, L) → L = true := by
  induction ps with
  | nil => cases hp
  | cons x t ih =>
    intro nps L h
    simp only [annotateProps] at h
    cases hx : annotateProperty canLead x with
    | error e => rw [hx] at h; simp at h
    | ok q =>
      obtain ⟨np, l1⟩ := q
      rw [hx] at h
      cases ht : annotateProps canLead t with
      | error e => rw [ht] at h; simp at h
      | ok q2 =>
        obtain ⟨nps2, l2⟩ := q2
        rw [ht] at h
        simp only [Except.ok.injEq, Prod.mk.injEq] at h
        obtain ⟨-, rfl⟩ := h
        rcases List.mem_cons.mp hp with rfl | hm
        · cases p with
          | mk nm opt pv =>
            simp only [annotateProperty] at hx
            cases hv : annotatePropValue canLead pv with
            | error e => rw [hv] at hx; simp at hx
            | ok q3 =>
              obtain ⟨nv, leads⟩ := q3
              rw [hv] at hx
              simp only [Except.ok.injEq, Prod.mk.injEq] at hx
              obtain ⟨-, rfl⟩ := hx
              simp [hall nv leads hv]
        · simp [ih hm nps2 l2 ht]

/-- A witnessed direct self-reference forces the `leads` bit of the annotator
result (given the owner satisfies `canLead`). -/
theorem annotate_leads (canLead : String → Bool) (owner : String)
    (hc : canLead owner = true) (pv : PV) (h : HasDirectSelfRef owner pv) :
    ∀ res l, annotatePropValue canLead pv = .ok (res, l) → l = true := by
  induction h with
  | ref re v loc h1 h2 h3 =>
    intro res l hal
    simp only [annotatePropValue, Except.ok.injEq, Prod.mk.injEq] at hal
    obtain ⟨-, rfl⟩ := hal
    rw [h3]
    exact hc
  | union_mem re vs v hv hder ih =>
    intro res l hal
    simp only [annotatePropValue] at hal
    cases hvv : annotateValues canLead vs with
    | error e => rw [hvv] at hal; simp at hal
    | ok q =>
      obtain ⟨nvs, L⟩ := q
      rw [hvv] at hal
      simp only [Except.ok.injEq, Prod.mk.injEq] at hal
      obtain ⟨-, rfl⟩ := hal
      exact annotateValues_mem_leads canLead vs v hv ih nvs L hvv
  | intersection_mem re vs v hv hder ih =>
    intro res l hal
    simp only [annotatePropValue] at hal
    cases hvv : annotateValues canLead vs with
    | error e => rw [hvv] at hal; simp at hal
    | ok q =>
      obtain ⟨nvs, L⟩ := q
      rw [hvv] at hal
      simp only [Except.ok.injEq, Prod.mk.injEq] at hal
      obtain ⟨-, rfl⟩ := hal
      exact annotateValues_mem_leads canLead vs v hv ih nvs L hvv
  | tuple_mem re vs v hv hder ih =>
    intro res l hal
    simp only [annotatePropValue] at hal
    cases hvv : annotateValues canLead vs with
    | error e => rw [hvv] at hal; simp at hal
    | ok q =>
      obtain ⟨nvs, L⟩ := q
      rw [hvv] at hal
      simp only [Except.ok.injEq, Prod.mk.injEq] at hal
      obtain ⟨-, rfl⟩ := hal
      exact annotateValues_mem_leads canLead vs v hv ih nvs L hvv
  | record_mem re vs v hv hder ih =>
    intro res l hal
    simp only [annotatePropValue] at hal
    cases hvv : annotateValues canLead vs with
    | error e => rw [hvv] at hal; simp at hal
    | ok q =>
      obtain ⟨nvs, L⟩ := q
      rw [hvv] at hal
      simp only [Except.ok.injEq, Prod.mk.injEq] at hal
      obtain ⟨-, rfl⟩ := hal
      exact annotateValues_mem_leads canLead vs v hv ih nvs L hvv
  | promise_mem re vs v hv hder ih =>
    intro res l hal
    simp only [annotatePropValue] at hal
    cases hvv : annotateValues canLead vs with
    | error e => rw [hvv] at hal; simp at hal
    | ok q =>
      obtain ⟨nvs, L⟩ := q
      rw [hvv] at hal
      simp only [Except.ok.injEq, Prod.mk.injEq] at hal
      obtain ⟨-, rfl⟩ := hal
      exact annotateValues_mem_leads canLead vs v hv ih nvs L hvv
  | array_head re v rest hder ih =>
    intro res l hal
    simp only [annotatePropValue] at hal
    cases hv : annotatePropValue canLead v with
    | error e => rw [hv] at hal; simp at hal
    | ok q =>
      obtain ⟨inner, l2⟩ := q
      rw [hv] at hal
      simp only [Except.ok.injEq, Prod.mk.injEq] at hal
      obtain ⟨-, rfl⟩ := hal
      exact ih inner l2 hv
  | object_mem re ps p hp hder ih =>
    intro res l hal
    simp only [annotatePropValue] at hal
    cases hvv : annotateProps canLead ps with
    | error e => rw [hvv] at hal; simp at hal
    | ok q =>
      obtain ⟨nps, L⟩ := q
      rw [hvv] at hal
      simp only [Except.ok.injEq, Prod.mk.injEq] at hal
      obtain ⟨-, rfl⟩ := hal
      exact annotateProps_mem_leads canLead ps p hp ih nps L hvv
  | typeOperator_val re op v hder ih =>
    intro res l hal
    simp only [annotatePropValue] at hal
    cases hv : annotatePropValue canLead v with
    | error e => rw [hv] at hal; simp at hal
    | ok q =>
      obtain ⟨nv, l2⟩ := q
      rw [hv] at hal
      simp only [Except.ok.injEq, Prod.mk.injEq] at hal
      obtain ⟨-, rfl⟩ := hal
      exact ih nv l2 hv
  | mapped_val re param constr v hder ih =>
    intro res l hal
    simp only [annotatePropValue] at hal
    cases hv : annotatePropValue canLead v with
    | error e => rw [hv] at hal; simp at hal
    | ok q =>
      obtain ⟨nv, l2⟩ := q
      rw [hv] at hal
      simp only [Except.ok.injEq, Prod.mk.injEq] at hal
      obtain ⟨-, rfl⟩ := hal
      exact ih nv l2 hv
  | conditional_true re c ext t f hder ih =>
    intro res l hal
    simp only [annotatePropValue] at hal
    cases h1 : annotatePropValue canLead c with
    | error e => rw [h1] at hal; simp at hal
    | ok q1 =>
      obtain ⟨t1, l1⟩ := q1
      rw [h1] at hal
      cases h2 : annotatePropValue canLead ext with
      | error e => rw [h2] at hal; simp at hal
      | ok q2 =>
        obtain ⟨t2, l2⟩ := q2
        rw [h2] at hal
        cases h3 : annotatePropValue canLead t with
        | error e => rw [h3] at hal; simp at hal
        | ok q3 =>
          obtain ⟨t3, l3⟩ := q3
          rw [h3] at hal
          cases h4 : annotatePropValue canLead f with
          | error e => rw [h4] at hal; simp at hal
          | ok q4 =>
            obtain ⟨t4, l4⟩ := q4
            rw [h4] at hal
            simp only [Except.ok.injEq, Prod.mk.injEq] at hal
            obtain ⟨-, rfl⟩ := hal
            simp [ih t3 l3 h3]

/-- `annotateProperty` keeps the name, reflects the value-level annotation and
sets the property flag when recursion was encountered. -/
theorem annotateProperty_shape (canLead : String → Bool) (p : AProp) :
    ∀ np l, annotateProperty canLead p = .ok (np, l) →
      np.name = p.name ∧
      (∃ nv, annotatePropValue canLead p.pv = .ok (nv, l)) ∧
      (l = true → np.pv.re = true) :=
  match p with
  | .mk nm opt pv => by
    intro np l h
    simp only [annotateProperty] at h
    cases hv : annotatePropValue canLead pv with
    | error e => rw [hv] at h; simp at h
    | ok q =>
      obtain ⟨nv, leads⟩ := q
      rw [hv] at h
      simp only [Except.ok.injEq, Prod.mk.injEq] at h
      obtain ⟨rfl, rfl⟩ := h
      refine ⟨rfl, ⟨nv, hv⟩, ?_⟩
      intro hl
      subst hl
      cases nv with
      | mk r c => rfl

theorem annotateProps_pair (canLead : String → Bool) (ps : List AProp)
    (p : AProp) (hp : p ∈ ps) :
    ∀ nps L, annotateProps canLead ps = .ok (nps, L) →
      ∃ np lp, np ∈ nps ∧ annotateProperty canLead p = .ok (np, lp) := by
  induction ps with
  | nil => cases hp
  | cons x t ih =>
    intro nps L h
    simp only [annotateProps] at h
    cases hx : annotateProperty canLead x with
    | error e => rw [hx] at h; simp at h
    | ok q =>
      obtain ⟨np, l1⟩ := q
      rw [hx] at h
      cases ht : annotateProps canLead t with
      | error e => rw [ht] at h; simp at h
      | ok q2 =>
        obtain ⟨nps2, l2⟩ := q2
        rw [ht] at h
        simp only [Except.ok.injEq, Prod.mk.injEq] at h
        obtain ⟨rfl, -⟩ := h
        rcases List.mem_cons.mp hp with rfl | hm
        · exact ⟨np, l1, List.mem_cons_self _ _, hx⟩
        · obtain ⟨np', lp', hmem, hprop⟩ := ih hm nps2 l2 ht
          exact ⟨np', lp', List.mem_cons_of_mem _ hmem, hprop⟩

theorem selfRefsFlaggedProps_mem (owner : String) (nps : List AProp)
    (h : selfRefsFlaggedProps owner nps = true) :
    ∀ np ∈ nps, selfRefsFlagged owner np.pv = true := by
  induction nps with
  | nil =>
    intro np hnp
    cases hnp
  | cons x t ih =>
    intro np hnp
    cases x with
    | mk nm opt pv =>
      have h' : selfRefsFlagged owner pv = true ∧
          selfRefsFlaggedProps owner t = true := by
        simpa [selfRefsFlaggedProps, Bool.and_eq_true] using h
      rcases List.mem_cons.mp hnp with rfl | hm
      · exact h'.1
      · exact ih h'.2 np hm

/-- Claim C2, counterexample: for entity `A` whose property is an
array-of-array-of-`A`, the annotator sets `hasRecursion`, the owning
property flag and the leaf reference flag, but leaves the enclosing
composite (inner array) node with `recursiveEdge = false` — refuting the
claim that every enclosing composite node on the path back to `E` is
flagged. -/
theorem claim_C2_counterexample :
    innerArrayReC2 annC2 = some false ∧
    hasRecursionOf annC2 = some true ∧
    propertyReC2 annC2 = some true ∧
    leafReC2 annC2 = some true :=
  ⟨rfl, rfl, rfl, rfl⟩

/-- Claim C2, amended: for every instance entity `E` in the pipeline whose
property value contains a direct self-reference along an annotator-visited
path (including the isolated SCC-size-1 self-loop case), the annotated
entity has `hasRecursion = true`, every reference back to `E` that the
annotator visits in any resulting property is flagged
`recursiveEdge = true`, and the owning property itself is flagged — but
intermediate composite nodes are not themselves flagged (the signal only
propagates to the leaf references and the property level). -/
theorem claim_C2_amended (entities : List Entity) (E : Entity) (p : AProp)
    (sccs : List (List String)) (reach : String → List String) (res : Entity)
    (hE : E ∈ entities) (hkind : E.kind = .instanceK)
    (hp : p ∈ E.properties) (href : HasDirectSelfRef E.name p.pv)
    (hann : annotateEntityWithRecursion E (buildAdjacency entities)
      (buildNodeToScc sccs) reach = .ok res) :
    res.hasRecursion = true ∧
    (∀ np ∈ res.properties, selfRefsFlagged E.name np.pv = true) ∧
    (∃ np ∈ res.properties, np.name = p.name ∧ np.pv.re = true) := by
  have hself := buildAdjacency_self_edge entities E hE hkind p hp href
  obtain ⟨hcont, hcl⟩ := canLead_true_of_selfEdge (buildAdjacency entities)
    (buildNodeToScc sccs) reach E.name hself
    (fun s h => buildNodeToScc_mem sccs E.name s h)
  simp only [annotateEntityWithRecursion, hkind] at hann
  split at hann
  · simp at hann
  next nps l heq =>
    simp only [Except.ok.injEq] at hann
    subst hann
    refine ⟨?_, ?_, ?_⟩
    · simp [hcont]
      exact Or.inr hself
    · intro np hnp
      exact selfRefsFlaggedProps_mem E.name nps
        (annotateProps_flags _ E.name hcl E.properties nps l heq) np hnp
    · obtain ⟨np, lp, hmem, hprop⟩ :=
        annotateProps_pair _ E.properties p hp nps l heq
      obtain ⟨hname, ⟨nv, hval⟩, himp⟩ := annotateProperty_shape _ p np lp hprop
      exact ⟨np, hmem, hname,
        himp (annotate_leads _ E.name hcl p.pv href nv lp hval)⟩

/-- Claim C2 witness: the amended statement instantiated on the isolated
self-loop entity `W` (an array of references to `W`; SCC of size one). -/
theorem claim_C2_amended_witness :
    outC2W.hasRecursion = true ∧
    (∀ np ∈ outC2W.properties, selfRefsFlagged entC2W.name np.pv = true) ∧
    (∃ np ∈ outC2W.properties, np.name = propC2W.name ∧ np.pv.re = true) :=
  claim_C2_amended entitiesC2W entC2W propC2W (computeSCC adjC2W)
    (reachableFrom adjC2W) outC2W
    (List.mem_singleton.mpr rfl) rfl (List.mem_singleton.mpr rfl)
    (.array_head false (.mk false (.reference "W" none)) []
      (.ref false "W" none (by decide) (by decide) rfl))
    rfl

/-- Claim C3, refutation: on the two-cycle over the vertices `""` and `"a"`
(both keys of the map, mutually adjacent and hence mutually reachable),
`computeSCC` returns the single component `["a"]`: the empty-string vertex
appears in no returned component, so the components do not cover the vertex
set and two mutually reachable vertices share no component.  The pop loop
closing a component tests the popped name for JS string truthiness and so
silently drops the empty-string vertex. -/
theorem claim_C3 :
    adjKeys adjC3 = ["", "a"] ∧
    adjGet adjC3 "" = ["a"] ∧
    adjGet adjC3 "a" = [""] ∧
    computeSCC adjC3 = [["a"]] ∧
    (computeSCC adjC3).all (fun comp => !comp.contains "") = true :=
  ⟨rfl, rfl, rfl, rfl, rfl⟩

end Typemockr
